import Mathlib

/-!
Verification development for the pbql-go descriptor flattening engine
(`schema/schema.go`): a shallow embedding of the descriptor data model,
the bulk-loading walk (`LoadFiles` and its helpers), and the recursive
metadata (options) encoder, together with theorems checking the
natural-language specification against this embedding.

The external collaborators are modelled by their documented interface
contracts:
  * the bulk-insert sink (DuckDB appenders) is a per-table channel with a
    queue of pending rows and a list of flushed (visible) rows; `AppendRow`
    may be rejected by the sink (modelled by an oracle), `Flush` publishes
    the queue;
  * `protoreflect` descriptors are plain trees; a descriptor's `FullName`
    is derived from its ancestor's full name and its own simple name,
    which `joinScope` embeds;
  * `linker.ResolverFromFile f` yields a resolver scoped to `f` and its
    imports, embedded as the list of file paths it can see into.
-/

namespace Pbql

/-- Wire kinds of protobuf fields, mirroring `protoreflect.Kind`. -/
inductive Kind where
  | bool | int32 | sint32 | sfixed32 | int64 | sint64 | sfixed64
  | uint32 | fixed32 | uint64 | fixed64
  | float | double | string | bytes | enum | message | group
deriving DecidableEq, Repr

/-- `protoreflect.Kind.String()` for the kinds above. -/
def kindString : Kind → String
  | .bool => "bool"
  | .int32 => "int32"
  | .sint32 => "sint32"
  | .sfixed32 => "sfixed32"
  | .int64 => "int64"
  | .sint64 => "sint64"
  | .sfixed64 => "sfixed64"
  | .uint32 => "uint32"
  | .fixed32 => "fixed32"
  | .uint64 => "uint64"
  | .fixed64 => "fixed64"
  | .float => "float"
  | .double => "double"
  | .string => "string"
  | .bytes => "bytes"
  | .enum => "enum"
  | .message => "message"
  | .group => "group"

/-- A protobuf map key (`protoreflect.MapKey`): one of the scalar kinds
allowed as map keys. -/
inductive MapKey where
  | boolKey (b : Bool)
  | intKey (i : Int)
  | uintKey (n : Nat)
  | strKey (s : String)
deriving DecidableEq, Repr

/-- Go `fmt.Sprintf("%v", k.Interface())` on a map key: booleans render as
`true`/`false`, integers in decimal, strings verbatim. -/
def mapKeyString : MapKey → String
  | .boolKey true => "true"
  | .boolKey false => "false"
  | .intKey i => toString i
  | .uintKey n => toString n
  | .strKey s => s

/-- The part of a `protoreflect.FieldDescriptor` consumed by
`scalarToInterface`: the wire kind and, for enum kinds, the descriptor's
value list (`fd.Enum().Values()`, as name/number pairs in declaration
order). -/
structure ScalarInfo where
  kind : Kind
  enumVals : List (String × Int)
deriving DecidableEq, Repr

/-- The part of a `protoreflect.FieldDescriptor` consumed by
`valueToInterface` and the `Range` callbacks: naming, extension-ness,
list/map shape, own scalar info and the map-value scalar info
(`fd.MapValue()`). -/
structure FieldInfo where
  name : String
  fullName : String
  isExtension : Bool
  isList : Bool
  isMap : Bool
  scalarInfo : ScalarInfo
  mapValue : ScalarInfo
deriving DecidableEq, Repr

/-- A dynamic `protoreflect.Value`.  Message values carry their validity
bit and their set fields (each with the field's descriptor info), in
`Range` order; float payloads are carried opaquely as bit patterns, since
the encoder only moves them. -/
inductive PValue where
  | boolV (b : Bool)
  | intV (i : Int)
  | uintV (n : Nat)
  | floatV (bits : Nat)
  | strV (s : String)
  | bytesV (bs : List Nat)
  | enumV (n : Int)
  | msgV (valid : Bool) (fields : List (FieldInfo × PValue))
  | listV (elems : List PValue)
  | mapV (entries : List (MapKey × PValue))

/-- The Go `any` tree produced by the encoder for the JSON column:
scalars keep their Go static type, sequences become arrays, maps and
messages become key/value objects. -/
inductive JValue where
  | null
  | boolJ (b : Bool)
  | int32J (i : Int)
  | int64J (i : Int)
  | uint32J (n : Nat)
  | uint64J (n : Nat)
  | float32J (bits : Nat)
  | float64J (bits : Nat)
  | strJ (s : String)
  | bytesJ (bs : List Nat)
  | arr (elems : List JValue)
  | obj (entries : List (String × JValue))

/-- `linker.Resolver`, embedded by its documented scope: the set of file
paths whose declarations it can resolve (`linker.ResolverFromFile f`
covers `f` and its imports).  The loader threads a resolver through the
encoder, mirroring the Go signatures, but the encoder never consults it. -/
structure Resolver where
  scope : List String
deriving DecidableEq, Repr

/-- Whether a resolver can resolve declarations made in the file at
`declPath`. -/
def Resolver.canResolve (r : Resolver) (declPath : String) : Bool :=
  r.scope.contains declPath

/-- `fd.Enum().Values().ByNumber(n)`: the name of the first enum value
with number `n`, if any. -/
def byNumber (vals : List (String × Int)) (n : Int) : Option String :=
  (vals.find? (fun p => p.2 == n)).map (·.1)

/-- Dynamic accessors on `PValue`, mirroring `protoreflect.Value`'s typed
accessors.  The upstream descriptor system guarantees the value matches
the field's kind, so the fallback branches are unreachable on well-typed
inputs. -/
def PValue.boolValue : PValue → Bool
  | .boolV b => b
  | _ => false

def PValue.intValue : PValue → Int
  | .intV i => i
  | _ => 0

def PValue.uintValue : PValue → Nat
  | .uintV n => n
  | _ => 0

def PValue.floatBits : PValue → Nat
  | .floatV bits => bits
  | _ => 0

def PValue.strValue : PValue → String
  | .strV s => s
  | _ => ""

def PValue.bytesValue : PValue → List Nat
  | .bytesV bs => bs
  | _ => []

def PValue.enumNumber : PValue → Int
  | .enumV n => n
  | _ => 0

/-- The option/field key choice shared by `extractOptions` and
`messageToInterface`: extensions key by full name, plain fields by name. -/
def optionKey (fi : FieldInfo) : String :=
  if fi.isExtension then fi.fullName else fi.name

mutual

/-- `valueToInterface(fd, v, resolver)`: lists map the element values with
the field's own scalar info; maps stringify their keys and encode values
with `fd.MapValue()`'s info; everything else is a scalar. -/
def valueToInterface (fi : FieldInfo) (v : PValue) (res : Resolver) : JValue :=
  if fi.isList then
    match v with
    | .listV es => .arr (encodeList fi.scalarInfo res es)
    | _ => .arr []
  else if fi.isMap then
    match v with
    | .mapV entries => .obj (encodeMap fi.mapValue res entries)
    | _ => .obj []
  else scalarToInterface fi.scalarInfo v res
termination_by (sizeOf v, 2)

/-- `scalarToInterface(fd, v, resolver)`: type-directed scalar encoding;
enum values resolve to their symbolic name via the descriptor's value
list, falling back to the raw number; message and group kinds recurse. -/
def scalarToInterface (si : ScalarInfo) (v : PValue) (res : Resolver) : JValue :=
  match si.kind with
  | .bool => .boolJ v.boolValue
  | .int32 | .sint32 | .sfixed32 => .int32J v.intValue
  | .int64 | .sint64 | .sfixed64 => .int64J v.intValue
  | .uint32 | .fixed32 => .uint32J v.uintValue
  | .uint64 | .fixed64 => .uint64J v.uintValue
  | .float => .float32J v.floatBits
  | .double => .float64J v.floatBits
  | .string => .strJ v.strValue
  | .bytes => .bytesJ v.bytesValue
  | .enum =>
    match byNumber si.enumVals v.enumNumber with
    | some nm => .strJ nm
    | none => .int32J v.enumNumber
  | .message | .group => messageToInterface v res
termination_by (sizeOf v, 1)

/-- `messageToInterface(msg, resolver)`: invalid messages render as the
nil map; valid ones render their set fields, keyed by full name for
extensions and plain name otherwise. -/
def messageToInterface (v : PValue) (res : Resolver) : JValue :=
  match v with
  | .msgV true fields => .obj (encodeFields res fields)
  | _ => .null
termination_by (sizeOf v, 0)

/-- The loop body of the list branch of `valueToInterface`. -/
def encodeList (si : ScalarInfo) (res : Resolver) : List PValue → List JValue
  | [] => []
  | e :: rest => scalarToInterface si e res :: encodeList si res rest
termination_by l => (sizeOf l, 3)

/-- The `Range` body of the map branch of `valueToInterface`. -/
def encodeMap (si : ScalarInfo) (res : Resolver) :
    List (MapKey × PValue) → List (String × JValue)
  | [] => []
  | (k, v) :: rest => (mapKeyString k, scalarToInterface si v res) :: encodeMap si res rest
termination_by l => (sizeOf l, 3)

/-- The `Range` body shared by `messageToInterface` and
`extractOptions`: key each set field by full name when it is an
extension, plain name otherwise, and recurse on its value. -/
def encodeFields (res : Resolver) : List (FieldInfo × PValue) → List (String × JValue)
  | [] => []
  | (fi, v) :: rest => (optionKey fi, valueToInterface fi v res) :: encodeFields res rest
termination_by l => (sizeOf l, 3)

end

/-- An options value handed to `extractOptions`: either the nil
`proto.Message` or a message with its validity bit and set fields. -/
inductive POptions where
  | nil
  | msg (valid : Bool) (fields : List (FieldInfo × PValue))

/-- `bulkLoader.extractOptions`: nil or invalid options, and options with
no field set at all, yield the absent value; otherwise the set fields are
encoded into a key/value object for the JSON column. -/
def extractOptions (res : Resolver) (o : POptions) : Option JValue :=
  match o with
  | .nil => none
  | .msg valid fields =>
    if !valid then none
    else if fields.isEmpty then none
    else some (.obj (encodeFields res fields))

/-! ## Descriptor model

The resolved descriptor trees handed to `LoadFiles` by the (excluded)
compilation collaborator, carrying exactly the attributes the loader
reads.  Cross-file type references are by fully-qualified name, as the
loader itself only reads names.  A descriptor's `FullName` is not stored:
it is derived from the ancestor scope by `joinScope`, as `protoreflect`
defines it. -/

/-- `protoreflect` full-name derivation: a declaration named `n` under
scope `s` has full name `s.n`, or just `n` at the root of an unpackaged
file. -/
def joinScope (scope name : String) : String :=
  if scope = "" then name else scope ++ "." ++ name

/-- The field's containing oneof, when there is one: its index in the
enclosing message's oneof list and whether it is compiler-synthesized
(`protoreflect.OneofDescriptor.IsSynthetic`). -/
structure ContainingOneofInfo where
  index : Nat
  isSynthetic : Bool
deriving DecidableEq, Repr

/-- `protoreflect.Cardinality`, restricted to its three valid values. -/
inductive Cardinality where
  | required | optional | repeated
deriving DecidableEq, Repr

structure OneofDesc where
  name : String
  options : POptions

structure FieldDesc where
  name : String
  number : Int
  kind : Kind
  /-- `field.Message().FullName()`, meaningful for message/group kinds. -/
  messageFullName : String
  /-- `field.Enum().FullName()`, meaningful for the enum kind. -/
  enumFullName : String
  cardinality : Cardinality
  isList : Bool
  hasOptionalKeyword : Bool
  isMap : Bool
  mapKeyKind : Kind
  mapValueKind : Kind
  mapValueMessageFullName : String
  mapValueEnumFullName : String
  hasDefault : Bool
  /-- `fmt.Sprintf("%v", field.Default().Interface())`, carried as the
  string the Go runtime would render. -/
  defaultString : String
  jsonName : String
  options : POptions
  containingOneof : Option ContainingOneofInfo

structure EnumValueDesc where
  name : String
  number : Int
  options : POptions

structure EnumDesc where
  name : String
  values : List EnumValueDesc
  options : POptions

structure MethodDesc where
  name : String
  inputFullName : String
  outputFullName : String
  isStreamingClient : Bool
  isStreamingServer : Bool
  options : POptions

structure ServiceDesc where
  name : String
  methods : List MethodDesc
  options : POptions

structure ExtensionDesc where
  name : String
  number : Int
  kind : Kind
  messageFullName : String
  enumFullName : String
  extendeeFullName : String
  options : POptions

/-- A message descriptor: simple name, options, map-entry flag, then the
oneof list (which, per `protoreflect`, includes compiler-synthesized
oneofs), fields, and nested messages/enums/extensions, all in declaration
order. -/
inductive MessageDesc where
  | mk (name : String) (options : POptions) (isMapEntry : Bool)
       (oneofs : List OneofDesc) (fields : List FieldDesc)
       (messages : List MessageDesc) (enums : List EnumDesc)
       (extensions : List ExtensionDesc)

structure ImportDesc where
  path : String
  isPublic : Bool
  isWeak : Bool

/-- The three known dialects reported by `f.Syntax()`. -/
inductive ProtoDialect where
  | proto2 | proto3 | editions
deriving DecidableEq, Repr

structure FileDesc where
  path : String
  package : String
  dialect : ProtoDialect
  options : POptions
  imports : List ImportDesc
  messages : List MessageDesc
  enums : List EnumDesc
  services : List ServiceDesc
  extensions : List ExtensionDesc

/-- `linker.ResolverFromFile`: a resolver that can see into the given
file and its imports. -/
def ResolverFromFile (f : FileDesc) : Resolver :=
  { scope := f.path :: f.imports.map (·.path) }

/-! ## Row types

One structure per output table, with the columns of `createSchema`. -/

structure FileRow where
  name : String
  package : String
  syn : String
  options : Option JValue

structure MessageRow where
  full_name : String
  name : String
  file : String
  parent_message : Option String
  is_map_entry : Bool
  options : Option JValue

structure FieldRow where
  id : String
  name : String
  number : Int
  message : String
  type : String
  type_name : Option String
  label : Option String
  is_repeated : Bool
  is_optional : Bool
  is_map : Bool
  map_key_type : Option String
  map_value_type : Option String
  default_value : Option String
  json_name : String
  options : Option JValue

structure EnumRow where
  full_name : String
  name : String
  file : String
  parent_message : Option String
  options : Option JValue

structure EnumValueRow where
  id : String
  name : String
  number : Int
  enum : String
  options : Option JValue

structure ServiceRow where
  full_name : String
  name : String
  file : String
  options : Option JValue

structure MethodRow where
  full_name : String
  name : String
  service : String
  input_type : String
  output_type : String
  client_streaming : Bool
  server_streaming : Bool
  options : Option JValue

structure ExtensionRow where
  full_name : String
  name : String
  number : Int
  file : String
  extendee : String
  type : String
  type_name : Option String
  options : Option JValue

structure OneofRow where
  id : String
  name : String
  message : String
  options : Option JValue

structure OneofFieldRow where
  oneof_id : String
  field_id : String

structure DependencyRow where
  file : String
  dependency : String
  is_public : Bool
  is_weak : Bool

/-! ## The bulk-insert sink -/

/-- One `duckdb.Appender`: rows queued but not yet committed, and rows
already flushed into the table (the visible table contents, for a store
that was empty when the appender was opened). -/
structure TableChan (α : Type) where
  queued : List α := []
  flushed : List α := []

/-- Names for the eleven tables, used by the failure oracle. -/
inductive TableId where
  | files | messages | fields | enums | enumValues | services
  | methods | extensions | oneofs | oneofFields | dependencies
deriving DecidableEq, Repr

/-- The sink's row-rejection behaviour: `ora t n = true` means the sink
rejects the append of the `n`-th row queued on table `t` (for example an
identifier collision).  `AppendRow` in `duckdb-go` is fallible; this
oracle makes every failure pattern expressible. -/
def Oracle : Type := TableId → Nat → Bool

/-- The oracle of a sink that accepts every row. -/
def okOracle : Oracle := fun _ _ => false

/-- A row-emission error, carrying the formatted context message built at
the failing append. -/
structure LoadErr where
  msg : String
deriving DecidableEq, Repr

/-- `bulkLoader`: the eleven appenders plus the batch resolver. -/
structure BulkLoader where
  files : TableChan FileRow := {}
  messages : TableChan MessageRow := {}
  fields : TableChan FieldRow := {}
  enums : TableChan EnumRow := {}
  enumValues : TableChan EnumValueRow := {}
  services : TableChan ServiceRow := {}
  methods : TableChan MethodRow := {}
  extensions : TableChan ExtensionRow := {}
  oneofs : TableChan OneofRow := {}
  oneofFields : TableChan OneofFieldRow := {}
  dependencies : TableChan DependencyRow := {}
  resolver : Resolver

/-- `newBulkLoader`: all channels open and empty. -/
def newBulkLoader (res : Resolver) : BulkLoader := { resolver := res }

/-- `bulkLoader.Flush`: publish every queued row on every channel. -/
def TableChan.flush (c : TableChan α) : TableChan α :=
  { queued := [], flushed := c.flushed ++ c.queued }

def BulkLoader.Flush (bl : BulkLoader) : BulkLoader :=
  { bl with
    files := bl.files.flush, messages := bl.messages.flush,
    fields := bl.fields.flush, enums := bl.enums.flush,
    enumValues := bl.enumValues.flush, services := bl.services.flush,
    methods := bl.methods.flush, extensions := bl.extensions.flush,
    oneofs := bl.oneofs.flush, oneofFields := bl.oneofFields.flush,
    dependencies := bl.dependencies.flush }

/-- A load step either succeeds with the updated loader or aborts,
carrying the error and the loader state at the abort (whose queues are
discarded unflushed when the Go code returns the error). -/
abbrev LoadRes := Except (LoadErr × BulkLoader) BulkLoader

/-- The loader state an outcome leaves behind, for stating invariants
uniformly over the success and abort paths. -/
def resState : LoadRes → BulkLoader
  | .ok bl => bl
  | .error (_, bl) => bl

def TableChan.push (c : TableChan α) (r : α) : TableChan α :=
  { c with queued := c.queued ++ [r] }

/-! `AppendRow` on each channel: rejected when the oracle fires for this
table at the current queue position, otherwise the row is queued. -/

def appendFileRow (ora : Oracle) (bl : BulkLoader) (r : FileRow) (ctx : String) : LoadRes :=
  if ora .files bl.files.queued.length then .error (⟨ctx⟩, bl)
  else .ok { bl with files := bl.files.push r }

def appendMessageRow (ora : Oracle) (bl : BulkLoader) (r : MessageRow) (ctx : String) : LoadRes :=
  if ora .messages bl.messages.queued.length then .error (⟨ctx⟩, bl)
  else .ok { bl with messages := bl.messages.push r }

def appendFieldRow (ora : Oracle) (bl : BulkLoader) (r : FieldRow) (ctx : String) : LoadRes :=
  if ora .fields bl.fields.queued.length then .error (⟨ctx⟩, bl)
  else .ok { bl with fields := bl.fields.push r }

def appendEnumRow (ora : Oracle) (bl : BulkLoader) (r : EnumRow) (ctx : String) : LoadRes :=
  if ora .enums bl.enums.queued.length then .error (⟨ctx⟩, bl)
  else .ok { bl with enums := bl.enums.push r }

def appendEnumValueRow (ora : Oracle) (bl : BulkLoader) (r : EnumValueRow) (ctx : String) : LoadRes :=
  if ora .enumValues bl.enumValues.queued.length then .error (⟨ctx⟩, bl)
  else .ok { bl with enumValues := bl.enumValues.push r }

def appendServiceRow (ora : Oracle) (bl : BulkLoader) (r : ServiceRow) (ctx : String) : LoadRes :=
  if ora .services bl.services.queued.length then .error (⟨ctx⟩, bl)
  else .ok { bl with services := bl.services.push r }

def appendMethodRow (ora : Oracle) (bl : BulkLoader) (r : MethodRow) (ctx : String) : LoadRes :=
  if ora .methods bl.methods.queued.length then .error (⟨ctx⟩, bl)
  else .ok { bl with methods := bl.methods.push r }

def appendExtensionRow (ora : Oracle) (bl : BulkLoader) (r : ExtensionRow) (ctx : String) : LoadRes :=
  if ora .extensions bl.extensions.queued.length then .error (⟨ctx⟩, bl)
  else .ok { bl with extensions := bl.extensions.push r }

def appendOneofRow (ora : Oracle) (bl : BulkLoader) (r : OneofRow) (ctx : String) : LoadRes :=
  if ora .oneofs bl.oneofs.queued.length then .error (⟨ctx⟩, bl)
  else .ok { bl with oneofs := bl.oneofs.push r }

def appendOneofFieldRow (ora : Oracle) (bl : BulkLoader) (r : OneofFieldRow) (ctx : String) : LoadRes :=
  if ora .oneofFields bl.oneofFields.queued.length then .error (⟨ctx⟩, bl)
  else .ok { bl with oneofFields := bl.oneofFields.push r }

def appendDependencyRow (ora : Oracle) (bl : BulkLoader) (r : DependencyRow) (ctx : String) : LoadRes :=
  if ora .dependencies bl.dependencies.queued.length then .error (⟨ctx⟩, bl)
  else .ok { bl with dependencies := bl.dependencies.push r }

/-! ## The flattening walk -/

/-- The `fields` row built by `loadField`, factored out of the walk. -/
def fieldRowOf (res : Resolver) (field : FieldDesc) (msgFullName : String) : FieldRow :=
  { id := msgFullName ++ "." ++ field.name
    name := field.name
    number := field.number
    message := msgFullName
    type := kindString field.kind
    type_name :=
      if field.kind = .message ∨ field.kind = .group then some field.messageFullName
      else if field.kind = .enum then some field.enumFullName
      else none
    label :=
      match field.cardinality with
      | .required => some "required"
      | .repeated => some "repeated"
      | .optional => some "optional"
    is_repeated := field.isList
    is_optional := field.hasOptionalKeyword
    is_map := field.isMap
    map_key_type := if field.isMap then some (kindString field.mapKeyKind) else none
    map_value_type :=
      if field.isMap then
        some (if field.mapValueKind = .message then field.mapValueMessageFullName
              else if field.mapValueKind = .enum then field.mapValueEnumFullName
              else kindString field.mapValueKind)
      else none
    default_value := if field.hasDefault then some field.defaultString else none
    json_name := field.jsonName
    options := extractOptions res field.options }

/-- `loadField`: append the field row, then link the field to its oneof
when it belongs to a non-synthetic one whose identifier was collected
from the enclosing message (silently skipping the link otherwise). -/
def loadField (ora : Oracle) (bl : BulkLoader) (field : FieldDesc)
    (msgFullName : String) (oneofIDs : Nat → Option String) : LoadRes := do
  let fieldID := msgFullName ++ "." ++ field.name
  let bl ← appendFieldRow ora bl (fieldRowOf bl.resolver field msgFullName)
    ("failed to append field " ++ fieldID)
  match field.containingOneof with
  | some co =>
    if !co.isSynthetic then
      match oneofIDs co.index with
      | some oneofID =>
        appendOneofFieldRow ora bl ⟨oneofID, fieldID⟩ "failed to link field to oneof"
      | none => .ok bl
    else .ok bl
  | none => .ok bl

/-- `loadEnum`: append the enum row, then one row per enum value with the
composite identifier `fullName.valueName`. -/
def loadEnum (ora : Oracle) (bl : BulkLoader) (enum : EnumDesc)
    (fileName : String) (parentMsg : Option String) (scope : String) : LoadRes := do
  let fullName := joinScope scope enum.name
  let bl ← appendEnumRow ora bl
    { full_name := fullName, name := enum.name, file := fileName
      parent_message := parentMsg, options := extractOptions bl.resolver enum.options }
    ("failed to append enum " ++ fullName)
  enum.values.foldlM (fun bl val => do
    let valID := fullName ++ "." ++ val.name
    appendEnumValueRow ora bl
      { id := valID, name := val.name, number := val.number, enum := fullName
        options := extractOptions bl.resolver val.options }
      ("failed to append enum value " ++ valID)) bl

/-- `loadService`: append the service row, then one row per method with
the composite identifier `serviceFullName.methodName`. -/
def loadService (ora : Oracle) (bl : BulkLoader) (svc : ServiceDesc)
    (fileName : String) (scope : String) : LoadRes := do
  let fullName := joinScope scope svc.name
  let bl ← appendServiceRow ora bl
    { full_name := fullName, name := svc.name, file := fileName
      options := extractOptions bl.resolver svc.options }
    ("failed to append service " ++ fullName)
  svc.methods.foldlM (fun bl method => do
    let methodFullName := fullName ++ "." ++ method.name
    appendMethodRow ora bl
      { full_name := methodFullName, name := method.name, service := fullName
        input_type := method.inputFullName, output_type := method.outputFullName
        client_streaming := method.isStreamingClient
        server_streaming := method.isStreamingServer
        options := extractOptions bl.resolver method.options }
      ("failed to append method " ++ methodFullName)) bl

/-- `loadExtension`: append the extension row, carrying the file path it
was reached from. -/
def loadExtension (ora : Oracle) (bl : BulkLoader) (ext : ExtensionDesc)
    (fileName : String) (scope : String) : LoadRes := do
  let fullName := joinScope scope ext.name
  appendExtensionRow ora bl
    { full_name := fullName, name := ext.name, number := ext.number
      file := fileName, extendee := ext.extendeeFullName
      type := kindString ext.kind
      type_name :=
        if ext.kind = .message ∨ ext.kind = .group then some ext.messageFullName
        else if ext.kind = .enum then some ext.enumFullName
        else none
      options := extractOptions bl.resolver ext.options }
    ("failed to append extension " ++ fullName)

mutual

/-- `loadMessage`: append the message row, then one row per entry of the
message's oneof list (collecting a position-indexed identifier map),
then the fields, then recurse into nested messages, enums and
extensions, carrying the original file path and this message's full name
as the new parent context. -/
def loadMessage (ora : Oracle) (bl : BulkLoader) (msg : MessageDesc)
    (fileName : String) (parentMsg : Option String) (scope : String) : LoadRes :=
  match msg with
  | .mk name opts isMapEntry oneofs fields nested enums exts => do
    let fullName := joinScope scope name
    let bl ← appendMessageRow ora bl
      { full_name := fullName, name := name, file := fileName
        parent_message := parentMsg, is_map_entry := isMapEntry
        options := extractOptions bl.resolver opts }
      ("failed to append message " ++ fullName)
    let oneofIDs : Nat → Option String :=
      fun i => (oneofs.get? i).map (fun o => fullName ++ "." ++ o.name)
    let bl ← oneofs.foldlM (fun bl oneof => do
      let oneofID := fullName ++ "." ++ oneof.name
      appendOneofRow ora bl
        { id := oneofID, name := oneof.name, message := fullName
          options := extractOptions bl.resolver oneof.options }
        ("failed to append oneof " ++ oneofID)) bl
    let bl ← fields.foldlM (fun bl field => loadField ora bl field fullName oneofIDs) bl
    let bl ← loadMessageList ora bl nested fileName (some fullName) fullName
    let bl ← enums.foldlM (fun bl e => loadEnum ora bl e fileName (some fullName) fullName) bl
    exts.foldlM (fun bl x => loadExtension ora bl x fileName fullName) bl
termination_by sizeOf msg

/-- The nested-message loop of `loadMessage` (and the top-level message
loop of `loadFile`). -/
def loadMessageList (ora : Oracle) (bl : BulkLoader) (msgs : List MessageDesc)
    (fileName : String) (parentMsg : Option String) (scope : String) : LoadRes :=
  match msgs with
  | [] => .ok bl
  | m :: rest => do
    let bl ← loadMessage ora bl m fileName parentMsg scope
    loadMessageList ora bl rest fileName parentMsg scope
termination_by sizeOf msgs

end

/-- `loadFile`: the file row, the dependency rows, then the top-level
messages, enums, services and extensions. -/
def loadFile (ora : Oracle) (bl : BulkLoader) (f : FileDesc) : LoadRes := do
  let fileName := f.path
  let synStr :=
    match f.dialect with
    | .proto3 => "proto3"
    | .editions => "editions"
    | .proto2 => "proto2"
  let bl ← appendFileRow ora bl
    { name := fileName, package := f.package, syn := synStr
      options := extractOptions bl.resolver f.options }
    ("failed to append file " ++ fileName)
  let bl ← f.imports.foldlM (fun bl imp =>
    appendDependencyRow ora bl
      { file := fileName, dependency := imp.path
        is_public := imp.isPublic, is_weak := imp.isWeak }
      "failed to append dependency") bl
  let bl ← loadMessageList ora bl f.messages fileName none f.package
  let bl ← f.enums.foldlM (fun bl e => loadEnum ora bl e fileName none f.package) bl
  let bl ← f.services.foldlM (fun bl s => loadService ora bl s fileName f.package) bl
  f.extensions.foldlM (fun bl x => loadExtension ora bl x fileName f.package) bl

/-- What a whole `LoadFiles` call leaves behind: the returned error if
any, the sink state (flushed lists are the table contents a fresh store
shows afterwards), whether bulk-insert channels were opened, and the
resolver that was built. -/
structure LoadOutcome where
  result : Except LoadErr Unit
  db : BulkLoader
  opened : Bool
  resolver : Option Resolver

/-- `DB.LoadFiles`: empty batches are a no-op; otherwise build the
resolver from the first file, open the channels, walk each file in
order aborting on the first row-emission error, and flush everything
only after the whole batch has been queued. -/
def LoadFiles (ora : Oracle) (files : List FileDesc) : LoadOutcome :=
  match files with
  | [] =>
    { result := .ok (), db := newBulkLoader ⟨[]⟩, opened := false, resolver := none }
  | f0 :: rest =>
    let res := ResolverFromFile f0
    let bl := newBulkLoader res
    match (f0 :: rest).foldlM (fun bl f => loadFile ora bl f) bl with
    | .error (e, blAbort) =>
      { result := .error e, db := blAbort, opened := true, resolver := some res }
    | .ok bl =>
      { result := .ok (), db := bl.Flush, opened := true, resolver := some res }

/-! ## Walk invariants

The walk only ever queues rows (never flushing or dropping), and every
row it queues carries its composite identifier in the shape
`ancestor.localName`.  `ChanExt P c c'` says channel `c'` extends `c`
without touching the flushed rows, and every newly queued row satisfies
`P`. -/

def ChanExt (P : α → Prop) (c c' : TableChan α) : Prop :=
  c'.flushed = c.flushed ∧ (∀ r ∈ c.queued, r ∈ c'.queued) ∧
    (∀ r ∈ c'.queued, r ∈ c.queued ∨ P r)

/-- A message row is well-parented relative to the loader state `bl`: it
is top-level, or its `parent_message` is the full name of an emitted
message row and its own full name derives from that parent's full name
and its simple name. -/
def MsgRowOk (bl : BulkLoader) (r : MessageRow) : Prop :=
  r.parent_message = none ∨
    ∃ q ∈ bl.messages.queued, r.parent_message = some q.full_name ∧
      r.full_name = joinScope q.full_name r.name

/-- The same well-parentedness for enum rows. -/
def EnumRowOk (bl : BulkLoader) (r : EnumRow) : Prop :=
  r.parent_message = none ∨
    ∃ q ∈ bl.messages.queued, r.parent_message = some q.full_name ∧
      r.full_name = joinScope q.full_name r.name

/-- The master walk invariant: every channel only grows its queue, no
channel flushes, and every newly queued row's composite identifier is the
deterministic join of its ancestor identifier and its local simple name
(for nested messages and enums, the parent linkage is to an emitted row). -/
def Rall (bl bl' : BulkLoader) : Prop :=
  ChanExt (fun _ => True) bl.files bl'.files ∧
  ChanExt (MsgRowOk bl') bl.messages bl'.messages ∧
  ChanExt (fun r => r.id = r.message ++ "." ++ r.name) bl.fields bl'.fields ∧
  ChanExt (EnumRowOk bl') bl.enums bl'.enums ∧
  ChanExt (fun r => r.id = r.enum ++ "." ++ r.name) bl.enumValues bl'.enumValues ∧
  ChanExt (fun _ => True) bl.services bl'.services ∧
  ChanExt (fun r => r.full_name = r.service ++ "." ++ r.name) bl.methods bl'.methods ∧
  ChanExt (fun _ => True) bl.extensions bl'.extensions ∧
  ChanExt (fun r => r.id = r.message ++ "." ++ r.name) bl.oneofs bl'.oneofs ∧
  ChanExt (fun _ => True) bl.oneofFields bl'.oneofFields ∧
  ChanExt (fun _ => True) bl.dependencies bl'.dependencies

/-- Newly queued message/enum/extension rows all carry the file path the
walk was invoked with. -/
def FileScoped (fname : String) (bl bl' : BulkLoader) : Prop :=
  (∀ r ∈ bl'.messages.queued, r ∈ bl.messages.queued ∨ r.file = fname) ∧
  (∀ r ∈ bl'.enums.queued, r ∈ bl.enums.queued ∨ r.file = fname) ∧
  (∀ r ∈ bl'.extensions.queued, r ∈ bl.extensions.queued ∨ r.file = fname)

/-- The per-file walk invariant: the master invariant together with
file-path scoping of the rows this file's walk queues. -/
def RF (fname : String) (bl bl' : BulkLoader) : Prop :=
  Rall bl bl' ∧ FileScoped fname bl bl'

/-- The parent context under which `loadMessage`/`loadEnum` are invoked:
either top-level, or the scope is the full name of an already-emitted
message row and is also the parent pointer being passed down. -/
def ParentCtx (bl : BulkLoader) (parentMsg : Option String) (scope : String) : Prop :=
  parentMsg = none ∨
    (parentMsg = some scope ∧ ∃ q ∈ bl.messages.queued, q.full_name = scope)

/-! ## Claim theorems -/

/-- No table has any visible (flushed) rows. -/
def allFlushedNil (bl : BulkLoader) : Prop :=
  bl.files.flushed = [] ∧ bl.messages.flushed = [] ∧ bl.fields.flushed = [] ∧
  bl.enums.flushed = [] ∧ bl.enumValues.flushed = [] ∧ bl.services.flushed = [] ∧
  bl.methods.flushed = [] ∧ bl.extensions.flushed = [] ∧ bl.oneofs.flushed = [] ∧
  bl.oneofFields.flushed = [] ∧ bl.dependencies.flushed = []

/-- No table has any queued rows either. -/
def allQueuedNil (bl : BulkLoader) : Prop :=
  bl.files.queued = [] ∧ bl.messages.queued = [] ∧ bl.fields.queued = [] ∧
  bl.enums.queued = [] ∧ bl.enumValues.queued = [] ∧ bl.services.queued = [] ∧
  bl.methods.queued = [] ∧ bl.extensions.queued = [] ∧ bl.oneofs.queued = [] ∧
  bl.oneofFields.queued = [] ∧ bl.dependencies.queued = []

/-- A one-file batch whose sink rejects the very first row: the load
reports the failing file and leaves every table empty. -/
def wFile : FileDesc :=
  { path := "w.proto", package := "", dialect := .proto2, options := .nil
    imports := [], messages := [], enums := [], services := [], extensions := [] }

/-- A sink that rejects every append to the `files` table. -/
def failFilesOracle : Oracle :=
  fun t _ => match t with | .files => true | _ => false

/-! A sink that never rejects a row lets every load step succeed: the
walk's only failure source is the sink. -/

/-- The sink accepts every append. -/
def neverFails (ora : Oracle) : Prop := ∀ t n, ora t n = false

/-- The key-shape contract of a finished load: every composite primary
key in the visible tables is the join of its ancestor identifier and its
local simple name — independent of declaration order. -/
def KeyShapes (o : LoadOutcome) : Prop :=
  (∀ r ∈ o.db.fields.flushed, r.id = r.message ++ "." ++ r.name) ∧
  (∀ r ∈ o.db.oneofs.flushed, r.id = r.message ++ "." ++ r.name) ∧
  (∀ r ∈ o.db.enumValues.flushed, r.id = r.enum ++ "." ++ r.name) ∧
  (∀ r ∈ o.db.methods.flushed, r.full_name = r.service ++ "." ++ r.name) ∧
  (∀ r ∈ o.db.messages.flushed, r.parent_message = none ∨
    ∃ q ∈ o.db.messages.flushed, r.parent_message = some q.full_name ∧
      r.full_name = joinScope q.full_name r.name)

/-- A small two-level demo batch used by the witnesses: a package,
a message with a oneof, two fields, a nested message with a field,
a nested enum with a value, a top-level service with a method. -/
def demoField (nm : String) (num : Int) (co : Option ContainingOneofInfo) : FieldDesc :=
  { name := nm, number := num, kind := .int32, messageFullName := "", enumFullName := ""
    cardinality := .optional, isList := false, hasOptionalKeyword := false, isMap := false
    mapKeyKind := .int32, mapValueKind := .int32, mapValueMessageFullName := ""
    mapValueEnumFullName := "", hasDefault := false, defaultString := "", jsonName := nm
    options := .nil, containingOneof := co }

def demoService : ServiceDesc :=
  { name := "S"
    methods := [{ name := "Call", inputFullName := "pkg.M", outputFullName := "pkg.M",
                  isStreamingClient := false, isStreamingServer := true, options := .nil }]
    options := .nil }

def demoFile : FileDesc :=
  { path := "demo.proto", package := "pkg", dialect := .proto3, options := .nil
    imports := [⟨"dep.proto", true, false⟩]
    messages := [.mk "M" .nil false [⟨"choice", .nil⟩]
      [demoField "a" 1 (some ⟨0, false⟩), demoField "b" 2 none]
      [.mk "N" .nil false [] [demoField "x" 1 none] [] [] []]
      [{ name := "E", values := [⟨"V", 0, .nil⟩], options := .nil }] []]
    enums := []
    services := [demoService]
    extensions := [] }

/-- The per-file scoping contract: every message/enum/extension row
the file's walk queues carries the root file path, and nested
message/enum rows point at an emitted parent message by full name
(parent nil only for top-level entities). -/
def C6Concl (bl bl' : BulkLoader) (f : FileDesc) : Prop :=
  (∀ r ∈ bl'.messages.queued, r ∈ bl.messages.queued ∨
    (r.file = f.path ∧ (r.parent_message = none ∨
      ∃ q ∈ bl'.messages.queued, r.parent_message = some q.full_name ∧
        r.full_name = joinScope q.full_name r.name))) ∧
  (∀ r ∈ bl'.enums.queued, r ∈ bl.enums.queued ∨
    (r.file = f.path ∧ (r.parent_message = none ∨
      ∃ q ∈ bl'.messages.queued, r.parent_message = some q.full_name ∧
        r.full_name = joinScope q.full_name r.name))) ∧
  (∀ r ∈ bl'.extensions.queued, r ∈ bl.extensions.queued ∨ r.file = f.path)

/-- A file with a message `M` containing a nested message `N`, in an
unpackaged file, for the C6 witness. -/
def c6File : FileDesc :=
  { path := "c.proto", package := "", dialect := .proto2, options := .nil
    imports := [], messages := [.mk "M" .nil false [] [] [.mk "N" .nil false [] [] [] [] []] [] []]
    enums := [], services := [], extensions := [] }

/-- The loader state `loadFile` produces for `c6File` on a fresh loader. -/
def c6Out : BulkLoader :=
  { resolver := ⟨["c.proto"]⟩
    files := { queued := [{ name := "c.proto", package := "", syn := "proto2", options := none }] }
    messages := { queued :=
      [{ full_name := "M", name := "M", file := "c.proto", parent_message := none,
         is_map_entry := false, options := none },
       { full_name := "M.N", name := "N", file := "c.proto", parent_message := some "M",
         is_map_entry := false, options := none }] } }

/-- The C2 scenario: message `M` with explicit two-arm oneof `choice`
holding `a` and `b`, and an explicit-presence optional `c` represented by
the compiler-synthesized single-field oneof `_c` — which, per
`protoreflect`, appears in the message's oneof list with its field's
containing oneof marked synthetic. -/
def c2FieldC : FieldDesc :=
  { demoField "c" 3 (some ⟨1, true⟩) with hasOptionalKeyword := true }

def c2File : FileDesc :=
  { path := "c2.proto", package := "pkg", dialect := .proto3, options := .nil
    imports := []
    messages := [.mk "M" .nil false [⟨"choice", .nil⟩, ⟨"_c", .nil⟩]
      [demoField "a" 1 (some ⟨0, false⟩), demoField "b" 2 (some ⟨0, false⟩), c2FieldC]
      [] [] []]
    enums := [], services := [], extensions := [] }

/-- The C3 scenario: a two-file batch where the second file declares an
extension; the first file imports nothing. -/
def c3FileA : FileDesc :=
  { path := "a.proto", package := "", dialect := .proto3, options := .nil
    imports := [], messages := [], enums := [], services := [], extensions := [] }

def c3FileB : FileDesc :=
  { path := "b.proto", package := "pkgb", dialect := .proto3, options := .nil
    imports := [], messages := [], enums := [], services := []
    extensions := [{ name := "opt", number := 1000, kind := .string
                     messageFullName := "", enumFullName := ""
                     extendeeFullName := "google.protobuf.MessageOptions", options := .nil }] }

/-- Whether an options value has at least one field actually set: nil
and invalid messages have none, otherwise it is the set-field list being
non-empty (a structure with every field at its default has no set
fields). -/
def hasSetFields : POptions → Bool
  | .nil => false
  | .msg valid fields => valid && !fields.isEmpty

/-- A standard-options value with one explicitly set boolean field. -/
def c4Fi : FieldInfo :=
  { name := "deprecated", fullName := "deprecated", isExtension := false
    isList := false, isMap := false, scalarInfo := ⟨.bool, []⟩, mapValue := ⟨.bool, []⟩ }

def c4Opts : POptions := .msg true [(c4Fi, .boolV true)]

def c7Vals : List (String × Int) := [("RED", 1), ("GREEN", 2)]

/-- A map field with integer keys and string values. -/
def c8Fi : FieldInfo :=
  { name := "m", fullName := "m", isExtension := false, isList := false, isMap := true
    scalarInfo := ⟨.message, []⟩, mapValue := ⟨.string, []⟩ }

def c10Field : FieldDesc := demoField "f" 7 (some ⟨5, false⟩)

/-! ## Theorems -/

theorem chanExt_refl (P : α → Prop) (c : TableChan α) : ChanExt P c c :=
  ⟨rfl, fun _ h => h, fun _ h => Or.inl h⟩

theorem chanExt_trans {P : α → Prop} {a b c : TableChan α}
    (h1 : ChanExt P a b) (h2 : ChanExt P b c) : ChanExt P a c := by
  refine ⟨h2.1.trans h1.1, fun r hr => h2.2.1 r (h1.2.1 r hr), fun r hr => ?_⟩
  rcases h2.2.2 r hr with hb | hP
  · exact h1.2.2 r hb
  · exact Or.inr hP

theorem chanExt_push {P : α → Prop} (c : TableChan α) {r : α} (hP : P r) :
    ChanExt P c (c.push r) := by
  refine ⟨rfl, fun x hx => ?_, fun x hx => ?_⟩
  · simp [TableChan.push, hx]
  · simp only [resState, TableChan.push, List.mem_append, List.mem_singleton] at hx
    rcases hx with hx | rfl
    · exact Or.inl hx
    · exact Or.inr hP

theorem rall_refl (bl : BulkLoader) : Rall bl bl :=
  ⟨chanExt_refl _ _, chanExt_refl _ _, chanExt_refl _ _, chanExt_refl _ _,
   chanExt_refl _ _, chanExt_refl _ _, chanExt_refl _ _, chanExt_refl _ _,
   chanExt_refl _ _, chanExt_refl _ _, chanExt_refl _ _⟩

theorem msgRowOk_mono {a b : BulkLoader} (hmono : ∀ r ∈ a.messages.queued, r ∈ b.messages.queued)
    {r : MessageRow} (h : MsgRowOk a r) : MsgRowOk b r := by
  rcases h with h | ⟨q, hq, h1, h2⟩
  · exact Or.inl h
  · exact Or.inr ⟨q, hmono q hq, h1, h2⟩

theorem enumRowOk_mono {a b : BulkLoader} (hmono : ∀ r ∈ a.messages.queued, r ∈ b.messages.queued)
    {r : EnumRow} (h : EnumRowOk a r) : EnumRowOk b r := by
  rcases h with h | ⟨q, hq, h1, h2⟩
  · exact Or.inl h
  · exact Or.inr ⟨q, hmono q hq, h1, h2⟩

theorem rall_trans {a b c : BulkLoader} (h1 : Rall a b) (h2 : Rall b c) : Rall a c := by
  obtain ⟨f1, m1, fd1, e1, ev1, s1, mt1, x1, o1, of1, d1⟩ := h1
  obtain ⟨f2, m2, fd2, e2, ev2, s2, mt2, x2, o2, of2, d2⟩ := h2
  refine ⟨chanExt_trans f1 f2, ?_, chanExt_trans fd1 fd2, ?_, chanExt_trans ev1 ev2,
    chanExt_trans s1 s2, chanExt_trans mt1 mt2, chanExt_trans x1 x2, chanExt_trans o1 o2,
    chanExt_trans of1 of2, chanExt_trans d1 d2⟩
  · refine ⟨m2.1.trans m1.1, fun r hr => m2.2.1 r (m1.2.1 r hr), fun r hr => ?_⟩
    rcases m2.2.2 r hr with hb | hP
    · rcases m1.2.2 r hb with ha | hP
      · exact Or.inl ha
      · exact Or.inr (msgRowOk_mono m2.2.1 hP)
    · exact Or.inr hP
  · refine ⟨e2.1.trans e1.1, fun r hr => e2.2.1 r (e1.2.1 r hr), fun r hr => ?_⟩
    rcases e2.2.2 r hr with hb | hP
    · rcases e1.2.2 r hb with ha | hP
      · exact Or.inl ha
      · exact Or.inr (enumRowOk_mono m2.2.1 hP)
    · exact Or.inr hP

theorem rf_refl (fname : String) (bl : BulkLoader) : RF fname bl bl :=
  ⟨rall_refl bl, fun _ h => Or.inl h, fun _ h => Or.inl h, fun _ h => Or.inl h⟩

theorem rf_trans {fname : String} {a b c : BulkLoader}
    (h1 : RF fname a b) (h2 : RF fname b c) : RF fname a c := by
  obtain ⟨r1, fs1⟩ := h1
  obtain ⟨r2, fs2⟩ := h2
  refine ⟨rall_trans r1 r2, fun r hr => ?_, fun r hr => ?_, fun r hr => ?_⟩
  · rcases fs2.1 r hr with hb | hP
    · exact fs1.1 r hb
    · exact Or.inr hP
  · rcases fs2.2.1 r hr with hb | hP
    · exact fs1.2.1 r hb
    · exact Or.inr hP
  · rcases fs2.2.2 r hr with hb | hP
    · exact fs1.2.2 r hb
    · exact Or.inr hP

/-- Composing a load step with its continuation, stated over `resState`
so that it covers the abort path as well. -/
theorem resState_bind (R : BulkLoader → BulkLoader → Prop)
    (htrans : ∀ {a b c}, R a b → R b c → R a c)
    {m : LoadRes} {f : BulkLoader → LoadRes} {bl : BulkLoader}
    (h1 : R bl (resState m))
    (h2 : ∀ bl₁, m = .ok bl₁ → R bl bl₁ → R bl₁ (resState (f bl₁))) :
    R bl (resState (m >>= f)) := by
  cases m with
  | error p => simpa [resState, Bind.bind, Except.bind] using h1
  | ok bl₁ =>
    have hstep : R bl bl₁ := by simpa [resState] using h1
    have : (Except.ok bl₁ >>= f) = f bl₁ := rfl
    rw [this]
    exact htrans hstep (h2 bl₁ rfl hstep)

/-- Folding load steps preserves an `R`-extension, threading a
monotone side condition `I` through the successful intermediate states. -/
theorem resState_foldlM {α : Type} (R : BulkLoader → BulkLoader → Prop)
    (I : BulkLoader → Prop)
    (hrefl : ∀ b, R b b)
    (htrans : ∀ {a b c}, R a b → R b c → R a c)
    (hIR : ∀ {a b}, R a b → I a → I b)
    {f : BulkLoader → α → LoadRes} :
    ∀ l : List α, (∀ b a, a ∈ l → I b → R b (resState (f b a))) →
      ∀ b, I b → R b (resState (l.foldlM f b)) := by
  intro l
  induction l with
  | nil => intro _ b _; simpa [List.foldlM, resState] using hrefl b
  | cons a rest ih =>
    intro hf b hI
    rw [List.foldlM_cons]
    have hstep := hf b a (by simp) hI
    cases hfa : f b a with
    | error p =>
      rw [hfa] at hstep
      have : (Except.error p >>= fun b' => rest.foldlM f b') = (Except.error p : LoadRes) := rfl
      rw [this]
      simpa [resState] using hstep
    | ok bl₁ =>
      rw [hfa] at hstep
      have hR : R b bl₁ := by simpa [resState] using hstep
      have : (Except.ok bl₁ >>= fun b' => rest.foldlM f b') = rest.foldlM f bl₁ := rfl
      rw [this]
      exact htrans hR
        (ih (fun b a ha hIb => hf b a (List.mem_cons_of_mem _ ha) hIb) bl₁ (hIR hR hI))

/-! Step lemmas: each `AppendRow` helper is an `RF`-extension (on both
its accept and reject outcome), provided the row it queues satisfies the
table's key-shape predicate. -/

theorem appendFileRow_rf (fname : String) (ora : Oracle) (bl : BulkLoader)
    (r : FileRow) (ctx : String) :
    RF fname bl (resState (appendFileRow ora bl r ctx)) := by
  unfold appendFileRow
  split
  · exact rf_refl _ _
  · exact ⟨⟨chanExt_push _ trivial, chanExt_refl _ _, chanExt_refl _ _, chanExt_refl _ _,
      chanExt_refl _ _, chanExt_refl _ _, chanExt_refl _ _, chanExt_refl _ _,
      chanExt_refl _ _, chanExt_refl _ _, chanExt_refl _ _⟩,
      fun x h => Or.inl h, fun x h => Or.inl h, fun x h => Or.inl h⟩

theorem appendDependencyRow_rf (fname : String) (ora : Oracle) (bl : BulkLoader)
    (r : DependencyRow) (ctx : String) :
    RF fname bl (resState (appendDependencyRow ora bl r ctx)) := by
  unfold appendDependencyRow
  split
  · exact rf_refl _ _
  · exact ⟨⟨chanExt_refl _ _, chanExt_refl _ _, chanExt_refl _ _, chanExt_refl _ _,
      chanExt_refl _ _, chanExt_refl _ _, chanExt_refl _ _, chanExt_refl _ _,
      chanExt_refl _ _, chanExt_refl _ _, chanExt_push _ trivial⟩,
      fun x h => Or.inl h, fun x h => Or.inl h, fun x h => Or.inl h⟩

theorem appendServiceRow_rf (fname : String) (ora : Oracle) (bl : BulkLoader)
    (r : ServiceRow) (ctx : String) :
    RF fname bl (resState (appendServiceRow ora bl r ctx)) := by
  unfold appendServiceRow
  split
  · exact rf_refl _ _
  · exact ⟨⟨chanExt_refl _ _, chanExt_refl _ _, chanExt_refl _ _, chanExt_refl _ _,
      chanExt_refl _ _, chanExt_push _ trivial, chanExt_refl _ _, chanExt_refl _ _,
      chanExt_refl _ _, chanExt_refl _ _, chanExt_refl _ _⟩,
      fun x h => Or.inl h, fun x h => Or.inl h, fun x h => Or.inl h⟩

theorem appendOneofFieldRow_rf (fname : String) (ora : Oracle) (bl : BulkLoader)
    (r : OneofFieldRow) (ctx : String) :
    RF fname bl (resState (appendOneofFieldRow ora bl r ctx)) := by
  unfold appendOneofFieldRow
  split
  · exact rf_refl _ _
  · exact ⟨⟨chanExt_refl _ _, chanExt_refl _ _, chanExt_refl _ _, chanExt_refl _ _,
      chanExt_refl _ _, chanExt_refl _ _, chanExt_refl _ _, chanExt_refl _ _,
      chanExt_refl _ _, chanExt_push _ trivial, chanExt_refl _ _⟩,
      fun x h => Or.inl h, fun x h => Or.inl h, fun x h => Or.inl h⟩

theorem appendFieldRow_rf (fname : String) (ora : Oracle) (bl : BulkLoader)
    (r : FieldRow) (ctx : String) (hkey : r.id = r.message ++ "." ++ r.name) :
    RF fname bl (resState (appendFieldRow ora bl r ctx)) := by
  unfold appendFieldRow
  split
  · exact rf_refl _ _
  · exact ⟨⟨chanExt_refl _ _, chanExt_refl _ _, chanExt_push _ hkey, chanExt_refl _ _,
      chanExt_refl _ _, chanExt_refl _ _, chanExt_refl _ _, chanExt_refl _ _,
      chanExt_refl _ _, chanExt_refl _ _, chanExt_refl _ _⟩,
      fun x h => Or.inl h, fun x h => Or.inl h, fun x h => Or.inl h⟩

theorem appendOneofRow_rf (fname : String) (ora : Oracle) (bl : BulkLoader)
    (r : OneofRow) (ctx : String) (hkey : r.id = r.message ++ "." ++ r.name) :
    RF fname bl (resState (appendOneofRow ora bl r ctx)) := by
  unfold appendOneofRow
  split
  · exact rf_refl _ _
  · exact ⟨⟨chanExt_refl _ _, chanExt_refl _ _, chanExt_refl _ _, chanExt_refl _ _,
      chanExt_refl _ _, chanExt_refl _ _, chanExt_refl _ _, chanExt_refl _ _,
      chanExt_push _ hkey, chanExt_refl _ _, chanExt_refl _ _⟩,
      fun x h => Or.inl h, fun x h => Or.inl h, fun x h => Or.inl h⟩

theorem appendEnumValueRow_rf (fname : String) (ora : Oracle) (bl : BulkLoader)
    (r : EnumValueRow) (ctx : String) (hkey : r.id = r.enum ++ "." ++ r.name) :
    RF fname bl (resState (appendEnumValueRow ora bl r ctx)) := by
  unfold appendEnumValueRow
  split
  · exact rf_refl _ _
  · exact ⟨⟨chanExt_refl _ _, chanExt_refl _ _, chanExt_refl _ _, chanExt_refl _ _,
      chanExt_push _ hkey, chanExt_refl _ _, chanExt_refl _ _, chanExt_refl _ _,
      chanExt_refl _ _, chanExt_refl _ _, chanExt_refl _ _⟩,
      fun x h => Or.inl h, fun x h => Or.inl h, fun x h => Or.inl h⟩

theorem appendMethodRow_rf (fname : String) (ora : Oracle) (bl : BulkLoader)
    (r : MethodRow) (ctx : String) (hkey : r.full_name = r.service ++ "." ++ r.name) :
    RF fname bl (resState (appendMethodRow ora bl r ctx)) := by
  unfold appendMethodRow
  split
  · exact rf_refl _ _
  · exact ⟨⟨chanExt_refl _ _, chanExt_refl _ _, chanExt_refl _ _, chanExt_refl _ _,
      chanExt_refl _ _, chanExt_refl _ _, chanExt_push _ hkey, chanExt_refl _ _,
      chanExt_refl _ _, chanExt_refl _ _, chanExt_refl _ _⟩,
      fun x h => Or.inl h, fun x h => Or.inl h, fun x h => Or.inl h⟩

theorem appendExtensionRow_rf (ora : Oracle) (bl : BulkLoader)
    (r : ExtensionRow) (ctx : String) :
    RF r.file bl (resState (appendExtensionRow ora bl r ctx)) := by
  unfold appendExtensionRow
  split
  · exact rf_refl _ _
  · refine ⟨⟨chanExt_refl _ _, chanExt_refl _ _, chanExt_refl _ _, chanExt_refl _ _,
      chanExt_refl _ _, chanExt_refl _ _, chanExt_refl _ _, chanExt_push _ trivial,
      chanExt_refl _ _, chanExt_refl _ _, chanExt_refl _ _⟩,
      fun x h => Or.inl h, fun x h => Or.inl h, fun x hx => ?_⟩
    simp only [resState, TableChan.push, List.mem_append, List.mem_singleton] at hx
    rcases hx with hx | rfl
    · exact Or.inl hx
    · exact Or.inr rfl

theorem appendMessageRow_rf (ora : Oracle) (bl : BulkLoader)
    (r : MessageRow) (ctx : String)
    (hok : r.parent_message = none ∨
      ∃ q ∈ bl.messages.queued, r.parent_message = some q.full_name ∧
        r.full_name = joinScope q.full_name r.name) :
    RF r.file bl (resState (appendMessageRow ora bl r ctx)) := by
  unfold appendMessageRow
  split
  · exact rf_refl _ _
  · refine ⟨⟨chanExt_refl _ _, chanExt_push _ ?_, chanExt_refl _ _, chanExt_refl _ _,
      chanExt_refl _ _, chanExt_refl _ _, chanExt_refl _ _, chanExt_refl _ _,
      chanExt_refl _ _, chanExt_refl _ _, chanExt_refl _ _⟩,
      fun x hx => ?_, fun x h => Or.inl h, fun x h => Or.inl h⟩
    · rcases hok with h | ⟨q, hq, h1, h2⟩
      · exact Or.inl h
      · exact Or.inr ⟨q, by simp [resState, TableChan.push, hq], h1, h2⟩
    · simp only [resState, TableChan.push, List.mem_append, List.mem_singleton] at hx
      rcases hx with hx | rfl
      · exact Or.inl hx
      · exact Or.inr rfl

theorem appendEnumRow_rf (ora : Oracle) (bl : BulkLoader)
    (r : EnumRow) (ctx : String)
    (hok : r.parent_message = none ∨
      ∃ q ∈ bl.messages.queued, r.parent_message = some q.full_name ∧
        r.full_name = joinScope q.full_name r.name) :
    RF r.file bl (resState (appendEnumRow ora bl r ctx)) := by
  unfold appendEnumRow
  split
  · exact rf_refl _ _
  · refine ⟨⟨chanExt_refl _ _, chanExt_refl _ _, chanExt_refl _ _, chanExt_push _ ?_,
      chanExt_refl _ _, chanExt_refl _ _, chanExt_refl _ _, chanExt_refl _ _,
      chanExt_refl _ _, chanExt_refl _ _, chanExt_refl _ _⟩,
      fun x h => Or.inl h, fun x hx => ?_, fun x h => Or.inl h⟩
    · rcases hok with h | ⟨q, hq, h1, h2⟩
      · exact Or.inl h
      · exact Or.inr ⟨q, hq, h1, h2⟩
    · simp only [resState, TableChan.push, List.mem_append, List.mem_singleton] at hx
      rcases hx with hx | rfl
      · exact Or.inl hx
      · exact Or.inr rfl

/-! Ok-inversion of the append helpers, to recover the successor state. -/

theorem appendMessageRow_ok {ora : Oracle} {bl bl' : BulkLoader}
    {r : MessageRow} {ctx : String}
    (h : appendMessageRow ora bl r ctx = .ok bl') :
    bl' = { bl with messages := bl.messages.push r } := by
  unfold appendMessageRow at h
  split at h
  · exact absurd h (by simp)
  · simpa using h.symm

theorem parentCtx_mono {a b : BulkLoader} (h : Rall a b)
    {parentMsg : Option String} {scope : String}
    (hc : ParentCtx a parentMsg scope) : ParentCtx b parentMsg scope := by
  rcases hc with hc | ⟨h1, q, hq, h2⟩
  · exact Or.inl hc
  · exact Or.inr ⟨h1, q, h.2.1.2.1 q hq, h2⟩

theorem loadField_rf (fname : String) (ora : Oracle) (bl : BulkLoader)
    (field : FieldDesc) (msgFullName : String) (oneofIDs : Nat → Option String) :
    RF fname bl (resState (loadField ora bl field msgFullName oneofIDs)) := by
  unfold loadField
  simp only []
  refine resState_bind (RF fname) rf_trans (appendFieldRow_rf fname ora bl _ _ rfl) ?_
  intro bl₁ _ _
  rcases field.containingOneof with _ | co
  · exact rf_refl _ _
  · simp only []
    split
    · rcases oneofIDs co.index with _ | oneofID
      · exact rf_refl _ _
      · exact appendOneofFieldRow_rf fname ora bl₁ _ _
    · exact rf_refl _ _

theorem loadEnum_rf (ora : Oracle) (bl : BulkLoader) (enum : EnumDesc)
    (fileName : String) (parentMsg : Option String) (scope : String)
    (hctx : ParentCtx bl parentMsg scope) :
    RF fileName bl (resState (loadEnum ora bl enum fileName parentMsg scope)) := by
  unfold loadEnum
  simp only []
  refine resState_bind (RF fileName) rf_trans ?_ ?_
  · refine appendEnumRow_rf ora bl _ _ ?_
    rcases hctx with hc | ⟨h1, q, hq, h2⟩
    · exact Or.inl hc
    · exact Or.inr ⟨q, hq, by simp [h1, h2], by simp [h2]⟩
  · intro bl₁ _ _
    refine resState_foldlM (RF fileName) (fun _ => True) (rf_refl _) rf_trans
      (fun _ _ => trivial) _ ?_ bl₁ trivial
    intro b val _ _
    refine appendEnumValueRow_rf fileName ora b _ _ ?_
    rfl

theorem loadService_rf (ora : Oracle) (bl : BulkLoader) (svc : ServiceDesc)
    (fileName : String) (scope : String) :
    RF fileName bl (resState (loadService ora bl svc fileName scope)) := by
  unfold loadService
  simp only []
  refine resState_bind (RF fileName) rf_trans (appendServiceRow_rf fileName ora bl _ _) ?_
  intro bl₁ _ _
  refine resState_foldlM (RF fileName) (fun _ => True) (rf_refl _) rf_trans
    (fun _ _ => trivial) _ ?_ bl₁ trivial
  intro b method _ _
  refine appendMethodRow_rf fileName ora b _ _ ?_
  rfl

theorem loadExtension_rf (ora : Oracle) (bl : BulkLoader) (ext : ExtensionDesc)
    (fileName : String) (scope : String) :
    RF fileName bl (resState (loadExtension ora bl ext fileName scope)) := by
  unfold loadExtension
  simp only []
  exact appendExtensionRow_rf ora bl _ _

/-- The recursive message walk is an `RF`-extension, by strong induction
on the size of the descriptor subtree. -/
theorem loadMessage_rf_aux :
    ∀ n : Nat,
      (∀ msg : MessageDesc, sizeOf msg ≤ n →
        ∀ (ora : Oracle) (bl : BulkLoader) (fileName : String) (parentMsg : Option String)
          (scope : String), ParentCtx bl parentMsg scope →
          RF fileName bl (resState (loadMessage ora bl msg fileName parentMsg scope))) ∧
      (∀ msgs : List MessageDesc, sizeOf msgs ≤ n →
        ∀ (ora : Oracle) (bl : BulkLoader) (fileName : String) (parentMsg : Option String)
          (scope : String), ParentCtx bl parentMsg scope →
          RF fileName bl (resState (loadMessageList ora bl msgs fileName parentMsg scope))) := by
  intro n
  induction n using Nat.strong_induction_on with
  | _ n ih =>
    constructor
    · intro msg hsz ora bl fileName parentMsg scope hctx
      match msg with
      | .mk name opts isMapEntry oneofs fields nested enums exts =>
        have hnested : sizeOf nested < n := by
          have h1 : sizeOf nested <
              sizeOf (MessageDesc.mk name opts isMapEntry oneofs fields nested enums exts) := by
            simp [MessageDesc.mk.sizeOf_spec]; omega
          omega
        simp only [loadMessage]
        refine resState_bind (RF fileName) rf_trans ?_ ?_
        · refine appendMessageRow_rf ora bl _ _ ?_
          rcases hctx with hc | ⟨h1, q, hq, h2⟩
          · exact Or.inl hc
          · exact Or.inr ⟨q, hq, by simp [h1, h2], by simp [h2]⟩
        · intro bl₁ hok₁ _
          have hbl₁ := appendMessageRow_ok hok₁
          have hqmem : ∃ q ∈ bl₁.messages.queued, q.full_name = joinScope scope name := by
            subst hbl₁
            refine ⟨{ full_name := joinScope scope name, name := name, file := fileName,
                      parent_message := parentMsg, is_map_entry := isMapEntry,
                      options := extractOptions bl.resolver opts }, ?_, rfl⟩
            simp [TableChan.push]
          refine resState_bind (RF fileName) rf_trans ?_ ?_
          · refine resState_foldlM (RF fileName) (fun _ => True) (rf_refl _) rf_trans
              (fun _ _ => trivial) _ ?_ bl₁ trivial
            intro b oneof _ _
            refine appendOneofRow_rf fileName ora b _ _ ?_
            rfl
          · intro bl₂ _ h12
            have hqmem₂ : ∃ q ∈ bl₂.messages.queued, q.full_name = joinScope scope name := by
              obtain ⟨q, hq, hfn⟩ := hqmem
              exact ⟨q, h12.1.2.1.2.1 q hq, hfn⟩
            refine resState_bind (RF fileName) rf_trans ?_ ?_
            · refine resState_foldlM (RF fileName) (fun _ => True) (rf_refl _) rf_trans
                (fun _ _ => trivial) _ ?_ bl₂ trivial
              intro b field _ _
              exact loadField_rf fileName ora b field _ _
            · intro bl₃ _ h23
              have hqmem₃ : ∃ q ∈ bl₃.messages.queued, q.full_name = joinScope scope name := by
                obtain ⟨q, hq, hfn⟩ := hqmem₂
                exact ⟨q, h23.1.2.1.2.1 q hq, hfn⟩
              refine resState_bind (RF fileName) rf_trans ?_ ?_
              · exact (ih (sizeOf nested) hnested).2 nested le_rfl ora bl₃ fileName
                  (some (joinScope scope name)) (joinScope scope name)
                  (Or.inr ⟨rfl, hqmem₃⟩)
              · intro bl₄ _ h34
                have hqmem₄ : ∃ q ∈ bl₄.messages.queued, q.full_name = joinScope scope name := by
                  obtain ⟨q, hq, hfn⟩ := hqmem₃
                  exact ⟨q, h34.1.2.1.2.1 q hq, hfn⟩
                refine resState_bind (RF fileName) rf_trans ?_ ?_
                · refine resState_foldlM (RF fileName)
                    (fun b => ∃ q ∈ b.messages.queued, q.full_name = joinScope scope name)
                    (rf_refl _) rf_trans ?_ _ ?_ bl₄ hqmem₄
                  · intro a b hR hI
                    obtain ⟨q, hq, hfn⟩ := hI
                    exact ⟨q, hR.1.2.1.2.1 q hq, hfn⟩
                  · intro b e _ hI
                    exact loadEnum_rf ora b e fileName (some (joinScope scope name))
                      (joinScope scope name) (Or.inr ⟨rfl, hI⟩)
                · intro bl₅ _ _
                  refine resState_foldlM (RF fileName) (fun _ => True) (rf_refl _) rf_trans
                    (fun _ _ => trivial) _ ?_ bl₅ trivial
                  intro b x _ _
                  exact loadExtension_rf ora b x fileName (joinScope scope name)
    · intro msgs hsz ora bl fileName parentMsg scope hctx
      match msgs with
      | [] =>
        simp only [loadMessageList]
        exact rf_refl _ _
      | m :: rest =>
        have hm : sizeOf m < n := by
          have : sizeOf m < sizeOf (m :: rest) := by
            simp only [List.cons.sizeOf_spec]; omega
          omega
        have hrest : sizeOf rest < n := by
          have : sizeOf rest < sizeOf (m :: rest) := by
            simp only [List.cons.sizeOf_spec]; omega
          omega
        simp only [loadMessageList]
        refine resState_bind (RF fileName) rf_trans
          ((ih (sizeOf m) hm).1 m le_rfl ora bl fileName parentMsg scope hctx) ?_
        intro bl₁ _ h01
        exact (ih (sizeOf rest) hrest).2 rest le_rfl ora bl₁ fileName parentMsg scope
          (parentCtx_mono h01.1 hctx)

/-- `loadMessage` only queues rows, never flushes, and every queued row
satisfies the walk's key-shape and file-scoping predicates. -/
theorem loadMessage_rf (ora : Oracle) (bl : BulkLoader) (msg : MessageDesc)
    (fileName : String) (parentMsg : Option String) (scope : String)
    (hctx : ParentCtx bl parentMsg scope) :
    RF fileName bl (resState (loadMessage ora bl msg fileName parentMsg scope)) :=
  (loadMessage_rf_aux (sizeOf msg)).1 msg le_rfl ora bl fileName parentMsg scope hctx

theorem loadMessageList_rf (ora : Oracle) (bl : BulkLoader) (msgs : List MessageDesc)
    (fileName : String) (parentMsg : Option String) (scope : String)
    (hctx : ParentCtx bl parentMsg scope) :
    RF fileName bl (resState (loadMessageList ora bl msgs fileName parentMsg scope)) :=
  (loadMessage_rf_aux (sizeOf msgs)).2 msgs le_rfl ora bl fileName parentMsg scope hctx

/-- `loadFile` is an `RF`-extension scoped to the file's own path. -/
theorem loadFile_rf (ora : Oracle) (bl : BulkLoader) (f : FileDesc) :
    RF f.path bl (resState (loadFile ora bl f)) := by
  unfold loadFile
  simp only []
  refine resState_bind (RF f.path) rf_trans (appendFileRow_rf f.path ora bl _ _) ?_
  intro bl₁ _ _
  refine resState_bind (RF f.path) rf_trans ?_ ?_
  · refine resState_foldlM (RF f.path) (fun _ => True) (rf_refl _) rf_trans
      (fun _ _ => trivial) _ ?_ bl₁ trivial
    intro b imp _ _
    exact appendDependencyRow_rf f.path ora b _ _
  · intro bl₂ _ _
    refine resState_bind (RF f.path) rf_trans
      (loadMessageList_rf ora bl₂ f.messages f.path none f.package (Or.inl rfl)) ?_
    intro bl₃ _ _
    refine resState_bind (RF f.path) rf_trans ?_ ?_
    · refine resState_foldlM (RF f.path) (fun _ => True) (rf_refl _) rf_trans
        (fun _ _ => trivial) _ ?_ bl₃ trivial
      intro b e _ _
      exact loadEnum_rf ora b e f.path none f.package (Or.inl rfl)
    · intro bl₄ _ _
      refine resState_bind (RF f.path) rf_trans ?_ ?_
      · refine resState_foldlM (RF f.path) (fun _ => True) (rf_refl _) rf_trans
          (fun _ _ => trivial) _ ?_ bl₄ trivial
        intro b s _ _
        exact loadService_rf ora b s f.path f.package
      · intro bl₅ _ _
        refine resState_foldlM (RF f.path) (fun _ => True) (rf_refl _) rf_trans
          (fun _ _ => trivial) _ ?_ bl₅ trivial
        intro b x _ _
        exact loadExtension_rf ora b x f.path f.package

/-- The whole batch walk preserves the master invariant. -/
theorem loadFileFold_rall (ora : Oracle) (files : List FileDesc) (bl : BulkLoader) :
    Rall bl (resState (files.foldlM (fun bl f => loadFile ora bl f) bl)) :=
  resState_foldlM Rall (fun _ => True) rall_refl rall_trans (fun _ _ => trivial)
    files (fun b f _ _ => (loadFile_rf ora b f).1) bl trivial

/-- C1: when a batch load returns a row-emission error, no rows queued for
the batch — from the failing file or from files processed earlier in the
same call — are visible in any table: the walk aborts at the first
rejected append, propagates the error, and never flushes a channel before
the whole batch has been queued. -/
theorem loadFiles_error_nothing_visible (ora : Oracle) (files : List FileDesc) (e : LoadErr)
    (h : (LoadFiles ora files).result = .error e) :
    allFlushedNil (LoadFiles ora files).db := by
  cases files with
  | nil => simp [LoadFiles] at h
  | cons f0 rest =>
    have hr := loadFileFold_rall ora (f0 :: rest) (newBulkLoader (ResolverFromFile f0))
    unfold LoadFiles at h ⊢
    simp only [] at h ⊢
    cases hmm : (f0 :: rest).foldlM (fun bl f => loadFile ora bl f)
        (newBulkLoader (ResolverFromFile f0)) with
    | ok blOk =>
      rw [hmm] at h
      simp at h
    | error p =>
      obtain ⟨e', blA⟩ := p
      rw [hmm] at hr
      simp only [resState] at hr
      simp only []
      obtain ⟨cf, cm, cfd, ce, cev, cs, cmt, cx, co, cof, cd⟩ := hr
      exact ⟨cf.1, cm.1, cfd.1, ce.1, cev.1, cs.1, cmt.1, cx.1, co.1, cof.1, cd.1⟩

theorem loadFiles_error_nothing_visible_witness :
    (LoadFiles failFilesOracle [wFile]).result = .error ⟨"failed to append file w.proto"⟩ ∧
    allFlushedNil (LoadFiles failFilesOracle [wFile]).db := by
  have h : (LoadFiles failFilesOracle [wFile]).result =
      .error ⟨"failed to append file w.proto"⟩ := by
    simp [LoadFiles, loadFile, failFilesOracle, appendFileRow, newBulkLoader,
      ResolverFromFile, wFile, List.foldlM, bind, Except.bind, pure, Except.pure,
      extractOptions]
  exact ⟨h, loadFiles_error_nothing_visible failFilesOracle [wFile] _ h⟩

/-- C9: loading an empty batch is a no-op success — it returns success,
emits no rows into any table, and opens no bulk-insert channels. -/
theorem loadFiles_empty_noop (ora : Oracle) :
    (LoadFiles ora []).result = .ok () ∧ (LoadFiles ora []).opened = false ∧
    allFlushedNil (LoadFiles ora []).db ∧ allQueuedNil (LoadFiles ora []).db := by
  refine ⟨rfl, rfl, ?_, ?_⟩ <;>
    simp [LoadFiles, allFlushedNil, allQueuedNil, newBulkLoader]

theorem okOracle_neverFails : neverFails okOracle := fun _ _ => rfl

theorem foldlM_ok {α : Type} {f : BulkLoader → α → LoadRes} :
    ∀ l : List α, (∀ b a, a ∈ l → ∃ b', f b a = .ok b') →
      ∀ b, ∃ b', l.foldlM f b = .ok b' := by
  intro l
  induction l with
  | nil => intro _ b; exact ⟨b, rfl⟩
  | cons a rest ih =>
    intro hf b
    obtain ⟨b1, hb1⟩ := hf b a (by simp)
    rw [List.foldlM_cons, hb1]
    have hred : (Except.ok b1 >>= fun b' => rest.foldlM f b') = rest.foldlM f b1 := rfl
    rw [hred]
    exact ih (fun b a ha => hf b a (List.mem_cons_of_mem _ ha)) b1

/-! `AppendRow` under a sink that accepts every row. -/

theorem appendFileRow_ok_of {ora : Oracle} (h : neverFails ora)
    (bl : BulkLoader) (r : FileRow) (ctx : String) :
    appendFileRow ora bl r ctx = .ok { bl with files := bl.files.push r } := by
  unfold appendFileRow
  rw [h]
  rfl

theorem appendMessageRow_ok_of {ora : Oracle} (h : neverFails ora)
    (bl : BulkLoader) (r : MessageRow) (ctx : String) :
    appendMessageRow ora bl r ctx = .ok { bl with messages := bl.messages.push r } := by
  unfold appendMessageRow
  rw [h]
  rfl

theorem appendFieldRow_ok_of {ora : Oracle} (h : neverFails ora)
    (bl : BulkLoader) (r : FieldRow) (ctx : String) :
    appendFieldRow ora bl r ctx = .ok { bl with fields := bl.fields.push r } := by
  unfold appendFieldRow
  rw [h]
  rfl

theorem appendEnumRow_ok_of {ora : Oracle} (h : neverFails ora)
    (bl : BulkLoader) (r : EnumRow) (ctx : String) :
    appendEnumRow ora bl r ctx = .ok { bl with enums := bl.enums.push r } := by
  unfold appendEnumRow
  rw [h]
  rfl

theorem appendEnumValueRow_ok_of {ora : Oracle} (h : neverFails ora)
    (bl : BulkLoader) (r : EnumValueRow) (ctx : String) :
    appendEnumValueRow ora bl r ctx = .ok { bl with enumValues := bl.enumValues.push r } := by
  unfold appendEnumValueRow
  rw [h]
  rfl

theorem appendServiceRow_ok_of {ora : Oracle} (h : neverFails ora)
    (bl : BulkLoader) (r : ServiceRow) (ctx : String) :
    appendServiceRow ora bl r ctx = .ok { bl with services := bl.services.push r } := by
  unfold appendServiceRow
  rw [h]
  rfl

theorem appendMethodRow_ok_of {ora : Oracle} (h : neverFails ora)
    (bl : BulkLoader) (r : MethodRow) (ctx : String) :
    appendMethodRow ora bl r ctx = .ok { bl with methods := bl.methods.push r } := by
  unfold appendMethodRow
  rw [h]
  rfl

theorem appendExtensionRow_ok_of {ora : Oracle} (h : neverFails ora)
    (bl : BulkLoader) (r : ExtensionRow) (ctx : String) :
    appendExtensionRow ora bl r ctx = .ok { bl with extensions := bl.extensions.push r } := by
  unfold appendExtensionRow
  rw [h]
  rfl

theorem appendOneofRow_ok_of {ora : Oracle} (h : neverFails ora)
    (bl : BulkLoader) (r : OneofRow) (ctx : String) :
    appendOneofRow ora bl r ctx = .ok { bl with oneofs := bl.oneofs.push r } := by
  unfold appendOneofRow
  rw [h]
  rfl

theorem appendOneofFieldRow_ok_of {ora : Oracle} (h : neverFails ora)
    (bl : BulkLoader) (r : OneofFieldRow) (ctx : String) :
    appendOneofFieldRow ora bl r ctx = .ok { bl with oneofFields := bl.oneofFields.push r } := by
  unfold appendOneofFieldRow
  rw [h]
  rfl

theorem appendDependencyRow_ok_of {ora : Oracle} (h : neverFails ora)
    (bl : BulkLoader) (r : DependencyRow) (ctx : String) :
    appendDependencyRow ora bl r ctx = .ok { bl with dependencies := bl.dependencies.push r } := by
  unfold appendDependencyRow
  rw [h]
  rfl

/-- C7's local-recovery guarantee at the walk level: with a sink that
accepts rows, `loadField` always succeeds — metadata encoding (including
the enum-name fallback) cannot abort it. -/
theorem loadField_ok {ora : Oracle} (h : neverFails ora)
    (bl : BulkLoader) (field : FieldDesc) (m : String) (oids : Nat → Option String) :
    ∃ bl', loadField ora bl field m oids = .ok bl' := by
  unfold loadField
  simp only []
  rw [appendFieldRow_ok_of h]
  have hred : ∀ (b : BulkLoader) (f : BulkLoader → LoadRes), (Except.ok b >>= f) = f b :=
    fun _ _ => rfl
  rw [hred]
  rcases field.containingOneof with _ | co
  · exact ⟨_, rfl⟩
  · simp only []
    split
    · rcases oids co.index with _ | oid
      · exact ⟨_, rfl⟩
      · exact ⟨_, appendOneofFieldRow_ok_of h _ _ _⟩
    · exact ⟨_, rfl⟩

theorem loadEnum_ok {ora : Oracle} (h : neverFails ora)
    (bl : BulkLoader) (enum : EnumDesc) (fileName : String)
    (parentMsg : Option String) (scope : String) :
    ∃ bl', loadEnum ora bl enum fileName parentMsg scope = .ok bl' := by
  unfold loadEnum
  simp only []
  rw [appendEnumRow_ok_of h]
  have hred : ∀ (b : BulkLoader) (f : BulkLoader → LoadRes), (Except.ok b >>= f) = f b :=
    fun _ _ => rfl
  rw [hred]
  exact foldlM_ok _ (fun b val _ => ⟨_, appendEnumValueRow_ok_of h _ _ _⟩) _

theorem loadService_ok {ora : Oracle} (h : neverFails ora)
    (bl : BulkLoader) (svc : ServiceDesc) (fileName : String) (scope : String) :
    ∃ bl', loadService ora bl svc fileName scope = .ok bl' := by
  unfold loadService
  simp only []
  rw [appendServiceRow_ok_of h]
  have hred : ∀ (b : BulkLoader) (f : BulkLoader → LoadRes), (Except.ok b >>= f) = f b :=
    fun _ _ => rfl
  rw [hred]
  exact foldlM_ok _ (fun b method _ => ⟨_, appendMethodRow_ok_of h _ _ _⟩) _

theorem loadExtension_ok {ora : Oracle} (h : neverFails ora)
    (bl : BulkLoader) (ext : ExtensionDesc) (fileName : String) (scope : String) :
    ∃ bl', loadExtension ora bl ext fileName scope = .ok bl' := by
  unfold loadExtension
  simp only []
  exact ⟨_, appendExtensionRow_ok_of h _ _ _⟩

theorem loadMessage_ok_aux {ora : Oracle} (h : neverFails ora) :
    ∀ n : Nat,
      (∀ msg : MessageDesc, sizeOf msg ≤ n →
        ∀ (bl : BulkLoader) (fileName : String) (parentMsg : Option String) (scope : String),
          ∃ bl', loadMessage ora bl msg fileName parentMsg scope = .ok bl') ∧
      (∀ msgs : List MessageDesc, sizeOf msgs ≤ n →
        ∀ (bl : BulkLoader) (fileName : String) (parentMsg : Option String) (scope : String),
          ∃ bl', loadMessageList ora bl msgs fileName parentMsg scope = .ok bl') := by
  intro n
  induction n using Nat.strong_induction_on with
  | _ n ih =>
    have hred : ∀ (b : BulkLoader) (f : BulkLoader → LoadRes), (Except.ok b >>= f) = f b :=
      fun _ _ => rfl
    constructor
    · intro msg hsz bl fileName parentMsg scope
      match msg with
      | .mk name opts isMapEntry oneofs fields nested enums exts =>
        have hnested : sizeOf nested < n := by
          have h1 : sizeOf nested <
              sizeOf (MessageDesc.mk name opts isMapEntry oneofs fields nested enums exts) := by
            simp [MessageDesc.mk.sizeOf_spec]; omega
          omega
        simp only [loadMessage]
        rw [appendMessageRow_ok_of h, hred]
        obtain ⟨b2, hb2⟩ := foldlM_ok _
          (fun b oneof (_ : oneof ∈ oneofs) => ⟨_, appendOneofRow_ok_of h b _ _⟩) _
        rw [hb2, hred]
        obtain ⟨b3, hb3⟩ := foldlM_ok _ (fun b field (_ : field ∈ fields) => loadField_ok h b field _ _) b2
        rw [hb3, hred]
        obtain ⟨b4, hb4⟩ := (ih (sizeOf nested) hnested).2 nested le_rfl b3 fileName
          (some (joinScope scope name)) (joinScope scope name)
        rw [hb4, hred]
        obtain ⟨b5, hb5⟩ := foldlM_ok _
          (fun b e (_ : e ∈ enums) => loadEnum_ok h b e fileName (some (joinScope scope name))
            (joinScope scope name)) b4
        rw [hb5, hred]
        exact foldlM_ok _ (fun b x _ => loadExtension_ok h b x fileName (joinScope scope name)) b5
    · intro msgs hsz bl fileName parentMsg scope
      match msgs with
      | [] => exact ⟨bl, by simp [loadMessageList]⟩
      | m :: rest =>
        have hm : sizeOf m < n := by
          have : sizeOf m < sizeOf (m :: rest) := by
            simp only [List.cons.sizeOf_spec]; omega
          omega
        have hrest : sizeOf rest < n := by
          have : sizeOf rest < sizeOf (m :: rest) := by
            simp only [List.cons.sizeOf_spec]; omega
          omega
        simp only [loadMessageList]
        obtain ⟨b1, hb1⟩ := (ih (sizeOf m) hm).1 m le_rfl bl fileName parentMsg scope
        rw [hb1, hred]
        exact (ih (sizeOf rest) hrest).2 rest le_rfl b1 fileName parentMsg scope

theorem loadFile_ok {ora : Oracle} (h : neverFails ora) (bl : BulkLoader) (f : FileDesc) :
    ∃ bl', loadFile ora bl f = .ok bl' := by
  have hred : ∀ (b : BulkLoader) (g : BulkLoader → LoadRes), (Except.ok b >>= g) = g b :=
    fun _ _ => rfl
  unfold loadFile
  simp only []
  rw [appendFileRow_ok_of h, hred]
  obtain ⟨b2, hb2⟩ := foldlM_ok _
    (fun b imp (_ : imp ∈ f.imports) => ⟨_, appendDependencyRow_ok_of h b _ _⟩) _
  rw [hb2, hred]
  obtain ⟨b3, hb3⟩ := (loadMessage_ok_aux h (sizeOf f.messages)).2 f.messages le_rfl b2
    f.path none f.package
  rw [hb3, hred]
  obtain ⟨b4, hb4⟩ := foldlM_ok _ (fun b e _ => loadEnum_ok h b e f.path none f.package) b3
  rw [hb4, hred]
  obtain ⟨b5, hb5⟩ := foldlM_ok _ (fun b s _ => loadService_ok h b s f.path f.package) b4
  rw [hb5, hred]
  exact foldlM_ok _ (fun b x _ => loadExtension_ok h b x f.path f.package) b5

/-- With a sink that accepts every row, a batch load always reports
success. -/
theorem loadFiles_ok {ora : Oracle} (h : neverFails ora) (files : List FileDesc) :
    (LoadFiles ora files).result = .ok () := by
  cases files with
  | nil => rfl
  | cons f0 rest =>
    unfold LoadFiles
    simp only []
    obtain ⟨bl', hbl'⟩ := foldlM_ok _ (fun b f _ => loadFile_ok h b f)
      (newBulkLoader (ResolverFromFile f0))
    rw [hbl']

/-- C5: on every successful batch load, each composite identifier (field
id, oneof id, enum-value id, method id, nested-message full name) is the
deterministic join of the ancestor identifier and the local simple name —
never a function of declaration order — so two loads of structurally
identical input produce identical keys (the embedding's loader is a pure
function of its input). -/
theorem loadFiles_keys_deterministic (ora : Oracle) (files : List FileDesc)
    (h : (LoadFiles ora files).result = .ok ()) :
    KeyShapes (LoadFiles ora files) := by
  cases files with
  | nil =>
    refine ⟨?_, ?_, ?_, ?_, ?_⟩ <;> intro r hr <;>
      simp [LoadFiles, newBulkLoader] at hr
  | cons f0 rest =>
    have hrall := loadFileFold_rall ora (f0 :: rest) (newBulkLoader (ResolverFromFile f0))
    unfold LoadFiles
    simp only []
    cases hmm : (f0 :: rest).foldlM (fun bl f => loadFile ora bl f)
        (newBulkLoader (ResolverFromFile f0)) with
    | error p =>
      exfalso
      unfold LoadFiles at h
      simp only [] at h
      rw [hmm] at h
      obtain ⟨e', blA⟩ := p
      simp at h
    | ok blOk =>
      rw [hmm] at hrall
      simp only [resState] at hrall
      simp only []
      obtain ⟨cf, cm, cfd, ce, cev, cs, cmt, cx, co, cof, cd⟩ := hrall
      have hflm : blOk.Flush.messages.flushed = blOk.messages.queued := by
        simp [BulkLoader.Flush, TableChan.flush, cm.1, newBulkLoader]
      have hflfd : blOk.Flush.fields.flushed = blOk.fields.queued := by
        simp [BulkLoader.Flush, TableChan.flush, cfd.1, newBulkLoader]
      have hflo : blOk.Flush.oneofs.flushed = blOk.oneofs.queued := by
        simp [BulkLoader.Flush, TableChan.flush, co.1, newBulkLoader]
      have hflev : blOk.Flush.enumValues.flushed = blOk.enumValues.queued := by
        simp [BulkLoader.Flush, TableChan.flush, cev.1, newBulkLoader]
      have hflmt : blOk.Flush.methods.flushed = blOk.methods.queued := by
        simp [BulkLoader.Flush, TableChan.flush, cmt.1, newBulkLoader]
      refine ⟨?_, ?_, ?_, ?_, ?_⟩
      · intro r hr
        rw [hflfd] at hr
        rcases cfd.2.2 r hr with hin | hP
        · simp [newBulkLoader] at hin
        · exact hP
      · intro r hr
        rw [hflo] at hr
        rcases co.2.2 r hr with hin | hP
        · simp [newBulkLoader] at hin
        · exact hP
      · intro r hr
        rw [hflev] at hr
        rcases cev.2.2 r hr with hin | hP
        · simp [newBulkLoader] at hin
        · exact hP
      · intro r hr
        rw [hflmt] at hr
        rcases cmt.2.2 r hr with hin | hP
        · simp [newBulkLoader] at hin
        · exact hP
      · intro r hr
        rw [hflm] at hr
        rcases cm.2.2 r hr with hin | hP
        · simp [newBulkLoader] at hin
        · rcases hP with h0 | ⟨q, hq, h1, h2⟩
          · exact Or.inl h0
          · exact Or.inr ⟨q, by rw [hflm]; exact hq, h1, h2⟩

theorem loadFiles_keys_deterministic_witness :
    (LoadFiles okOracle [demoFile]).result = .ok () ∧
    KeyShapes (LoadFiles okOracle [demoFile]) := by
  have h : (LoadFiles okOracle [demoFile]).result = .ok () :=
    loadFiles_ok okOracle_neverFails [demoFile]
  exact ⟨h, loadFiles_keys_deterministic okOracle [demoFile] h⟩

/-- C6: every Message/Enum/Extension row emitted while walking a file —
however deeply nested — carries the root file path of that file in its
`file` column, and a nested message's (or enum's) row carries the
enclosing message's fully-qualified name in `parent_message`, which is
nil only for top-level entities. -/
theorem loadFile_roots_file_path (ora : Oracle) (bl : BulkLoader) (f : FileDesc)
    (bl' : BulkLoader) (h : loadFile ora bl f = .ok bl') :
    C6Concl bl bl' f := by
  have hrf := loadFile_rf ora bl f
  rw [h] at hrf
  simp only [resState] at hrf
  obtain ⟨⟨_, cm, _, ce, _, _, _, _, _, _, _⟩, fsm, fse, fsx⟩ := hrf
  refine ⟨?_, ?_, ?_⟩
  · intro r hr
    rcases cm.2.2 r hr with hin | hP
    · exact Or.inl hin
    · rcases fsm r hr with hin | hfile
      · exact Or.inl hin
      · exact Or.inr ⟨hfile, hP⟩
  · intro r hr
    rcases ce.2.2 r hr with hin | hP
    · exact Or.inl hin
    · rcases fse r hr with hin | hfile
      · exact Or.inl hin
      · exact Or.inr ⟨hfile, hP⟩
  · exact fsx

theorem loadFile_roots_file_path_witness :
    loadFile okOracle (newBulkLoader ⟨["c.proto"]⟩) c6File = .ok c6Out ∧
    C6Concl (newBulkLoader ⟨["c.proto"]⟩) c6Out c6File := by
  have h : loadFile okOracle (newBulkLoader ⟨["c.proto"]⟩) c6File = .ok c6Out := by
    simp [loadFile, loadMessageList, loadMessage, appendFileRow, appendMessageRow,
      okOracle, newBulkLoader, c6File, c6Out, List.foldlM, bind, Except.bind, pure,
      Except.pure, extractOptions, joinScope, TableChan.push]
  exact ⟨h, loadFile_roots_file_path okOracle _ c6File c6Out h⟩

/-- C2 counterexample: the load emits a oneofs-table row for the
compiler-synthesized oneof as well, so the oneofs table holds two rows
(`choice` and `_c`), not exactly one. -/
theorem loadFiles_oneof_rows_counterexample :
    ((LoadFiles okOracle [c2File]).db.oneofs.flushed.map OneofRow.id) =
      ["pkg.M.choice", "pkg.M._c"] ∧
    ((LoadFiles okOracle [c2File]).db.oneofs.flushed.length = 1 → False) := by
  have h : ((LoadFiles okOracle [c2File]).db.oneofs.flushed.map OneofRow.id) =
      ["pkg.M.choice", "pkg.M._c"] := by
    simp [LoadFiles, loadFile, loadMessageList, loadMessage, loadField, appendFileRow,
      appendMessageRow, appendFieldRow, appendOneofRow, appendOneofFieldRow, okOracle,
      newBulkLoader, ResolverFromFile, c2File, c2FieldC, demoField, List.foldlM, bind,
      Except.bind, pure, Except.pure, extractOptions, joinScope, fieldRowOf,
      BulkLoader.Flush, TableChan.flush, TableChan.push]
  refine ⟨h, fun hlen => ?_⟩
  have : ((LoadFiles okOracle [c2File]).db.oneofs.flushed.map OneofRow.id).length = 1 := by
    simpa using hlen
  rw [h] at this
  simp at this

/-- C2 amended: the load emits one oneofs-table row per entry of the
message's oneof list — two rows here, `choice` and the synthetic `_c` —
while the junction links `choice` to `a` and `b` and has no entry for
`c`. -/
theorem loadFiles_oneof_rows_amended :
    (LoadFiles okOracle [c2File]).db.oneofs.flushed =
      [{ id := "pkg.M.choice", name := "choice", message := "pkg.M", options := none },
       { id := "pkg.M._c", name := "_c", message := "pkg.M", options := none }] ∧
    (LoadFiles okOracle [c2File]).db.oneofFields.flushed =
      [{ oneof_id := "pkg.M.choice", field_id := "pkg.M.a" },
       { oneof_id := "pkg.M.choice", field_id := "pkg.M.b" }] := by
  constructor <;>
    simp [LoadFiles, loadFile, loadMessageList, loadMessage, loadField, appendFileRow,
      appendMessageRow, appendFieldRow, appendOneofRow, appendOneofFieldRow, okOracle,
      newBulkLoader, ResolverFromFile, c2File, c2FieldC, demoField, List.foldlM, bind,
      Except.bind, pure, Except.pure, extractOptions, joinScope, fieldRowOf,
      BulkLoader.Flush, TableChan.flush, TableChan.push]

/-- C3 evaluated at its failing input: the batch loads successfully, but
the single resolver the engine builds is `ResolverFromFile files[0]`,
whose scope cannot resolve declarations made in the second file of the
batch — contradicting both the spec's batch-wide-resolver contract and
the code's own comment ("a combined resolver from all files"). -/
theorem loadFiles_resolver_scope_bug :
    (LoadFiles okOracle [c3FileA, c3FileB]).result = .ok () ∧
    (LoadFiles okOracle [c3FileA, c3FileB]).resolver = some (ResolverFromFile c3FileA) ∧
    (ResolverFromFile c3FileA).canResolve c3FileB.path = false := by
  refine ⟨loadFiles_ok okOracle_neverFails _, ?_, ?_⟩
  · unfold LoadFiles
    simp only []
    cases hmm : [c3FileA, c3FileB].foldlM (fun bl f => loadFile okOracle bl f)
        (newBulkLoader (ResolverFromFile c3FileA)) with
    | error p => rcases p with ⟨e, blA⟩; rfl
    | ok bl => rfl
  · simp [ResolverFromFile, Resolver.canResolve, c3FileA, c3FileB]

/-- C4: the metadata encoder returns the absent value (not an empty
structure) exactly when the options value has no fields set at all —
including a nil options value and an all-defaults structure — and
returns a non-empty key/value tree as soon as one field is set. -/
theorem extractOptions_absent_iff (res : Resolver) (o : POptions) :
    (extractOptions res o = none ↔ hasSetFields o = false) ∧
    (hasSetFields o = true →
      ∃ kvs, kvs ≠ [] ∧ extractOptions res o = some (JValue.obj kvs)) := by
  rcases o with _ | ⟨valid, fields⟩
  · simp [extractOptions, hasSetFields]
  · cases valid
    · simp [extractOptions, hasSetFields]
    · rcases fields with _ | ⟨p, rest⟩
      · simp [extractOptions, hasSetFields]
      · refine ⟨by simp [extractOptions, hasSetFields], fun _ =>
          ⟨encodeFields res (p :: rest), ?_, by simp [extractOptions]⟩⟩
        rcases p with ⟨fi, v⟩
        simp [encodeFields]

theorem extractOptions_absent_iff_witness :
    (extractOptions ⟨[]⟩ c4Opts = none ↔ hasSetFields c4Opts = false) ∧
    (hasSetFields c4Opts = true →
      ∃ kvs, kvs ≠ [] ∧ extractOptions ⟨[]⟩ c4Opts = some (JValue.obj kvs)) :=
  extractOptions_absent_iff ⟨[]⟩ c4Opts

/-- C7: enumerated values inside a metadata blob encode as their symbolic
name when the descriptor's value list can resolve the number, and fall
back to the raw numeric value otherwise; the fallback recovers locally —
with an accepting sink the field walk (metadata encoding included) never
fails. -/
theorem scalarToInterface_enum_fallback (res : Resolver) (vals : List (String × Int)) (n : Int) :
    (∀ nm, byNumber vals n = some nm →
      scalarToInterface ⟨.enum, vals⟩ (.enumV n) res = .strJ nm) ∧
    (byNumber vals n = none →
      scalarToInterface ⟨.enum, vals⟩ (.enumV n) res = .int32J n) ∧
    (∀ (ora : Oracle) (bl : BulkLoader) (field : FieldDesc) (m : String)
      (oids : Nat → Option String), neverFails ora →
      ∃ bl', loadField ora bl field m oids = .ok bl') := by
  refine ⟨?_, ?_, fun ora bl field m oids h => loadField_ok h bl field m oids⟩
  · intro nm hnm
    simp [scalarToInterface, PValue.enumNumber, hnm]
  · intro hn
    simp [scalarToInterface, PValue.enumNumber, hn]

theorem scalarToInterface_enum_fallback_witness :
    (byNumber c7Vals 1 = some "RED" ∧
      scalarToInterface ⟨.enum, c7Vals⟩ (.enumV 1) ⟨[]⟩ = .strJ "RED") ∧
    (byNumber c7Vals 5 = none ∧
      scalarToInterface ⟨.enum, c7Vals⟩ (.enumV 5) ⟨[]⟩ = .int32J 5) := by
  have h1 : byNumber c7Vals 1 = some "RED" := rfl
  have h2 : byNumber c7Vals 5 = none := rfl
  exact ⟨⟨h1, (scalarToInterface_enum_fallback ⟨[]⟩ c7Vals 1).1 "RED" h1⟩,
    ⟨h2, (scalarToInterface_enum_fallback ⟨[]⟩ c7Vals 5).2.1 h2⟩⟩

/-- C8: a map-typed field inside a metadata blob encodes as an object
whose keys are the stringified map keys — also for numeric and boolean
key kinds — and whose values are recursively encoded with the map-value
descriptor. -/
theorem valueToInterface_map (res : Resolver) (fi : FieldInfo)
    (entries : List (MapKey × PValue))
    (h1 : fi.isList = false) (h2 : fi.isMap = true) :
    valueToInterface fi (.mapV entries) res =
      .obj (entries.map fun kv =>
        (mapKeyString kv.1, scalarToInterface fi.mapValue kv.2 res)) := by
  have henc : ∀ l : List (MapKey × PValue),
      encodeMap fi.mapValue res l =
        l.map (fun kv => (mapKeyString kv.1, scalarToInterface fi.mapValue kv.2 res)) := by
    intro l
    induction l with
    | nil => simp [encodeMap]
    | cons p rest ih =>
      rcases p with ⟨k, v⟩
      simp [encodeMap, ih]
  simp [valueToInterface, h1, h2, henc]

theorem valueToInterface_map_witness :
    c8Fi.isList = false ∧ c8Fi.isMap = true ∧
    valueToInterface c8Fi (.mapV [(.intKey 1, .strV "a"), (.intKey 2, .strV "b")]) ⟨[]⟩ =
      .obj [("1", .strJ "a"), ("2", .strJ "b")] := by
  refine ⟨rfl, rfl, ?_⟩
  rw [valueToInterface_map ⟨[]⟩ c8Fi _ rfl rfl]
  have k1 : mapKeyString (.intKey 1) = "1" := rfl
  have k2 : mapKeyString (.intKey 2) = "2" := rfl
  have s1 : scalarToInterface c8Fi.mapValue (.strV "a") ⟨[]⟩ = .strJ "a" := by
    simp [scalarToInterface, PValue.strValue, c8Fi]
  have s2 : scalarToInterface c8Fi.mapValue (.strV "b") ⟨[]⟩ = .strJ "b" := by
    simp [scalarToInterface, PValue.strValue, c8Fi]
  simp [k1, k2, s1, s2]

theorem appendFieldRow_ok_inv {ora : Oracle} {bl bl' : BulkLoader}
    {r : FieldRow} {ctx : String}
    (h : appendFieldRow ora bl r ctx = .ok bl') :
    bl' = { bl with fields := bl.fields.push r } := by
  unfold appendFieldRow at h
  split at h
  · exact absurd h (by simp)
  · simpa using h.symm

/-- C10: when a field's containing non-synthetic oneof index is not among
the oneof identifiers collected from the enclosing message, the engine
silently omits the junction link and continues without error: `loadField`
behaves exactly as the bare field-row append, leaving the oneof_fields
channel untouched. -/
theorem loadField_missing_oneof_silent (ora : Oracle) (bl : BulkLoader)
    (field : FieldDesc) (msgFullName : String) (oneofIDs : Nat → Option String)
    (co : ContainingOneofInfo)
    (h1 : field.containingOneof = some co) (h2 : co.isSynthetic = false)
    (h3 : oneofIDs co.index = none) :
    loadField ora bl field msgFullName oneofIDs =
      appendFieldRow ora bl (fieldRowOf bl.resolver field msgFullName)
        ("failed to append field " ++ (msgFullName ++ "." ++ field.name)) ∧
    (∀ bl', loadField ora bl field msgFullName oneofIDs = .ok bl' →
      bl'.oneofFields = bl.oneofFields) := by
  have hmain : loadField ora bl field msgFullName oneofIDs =
      appendFieldRow ora bl (fieldRowOf bl.resolver field msgFullName)
        ("failed to append field " ++ (msgFullName ++ "." ++ field.name)) := by
    unfold loadField
    simp only []
    simp only [h1, h2, h3, Bool.not_false, if_true]
    cases hm : appendFieldRow ora bl (fieldRowOf bl.resolver field msgFullName)
        ("failed to append field " ++ (msgFullName ++ "." ++ field.name)) with
    | error p => simp [Bind.bind, Except.bind]
    | ok b => simp [Bind.bind, Except.bind]
  refine ⟨hmain, ?_⟩
  intro bl' hok
  rw [hmain] at hok
  have hb := appendFieldRow_ok_inv hok
  subst hb
  rfl

theorem loadField_missing_oneof_silent_witness :
    c10Field.containingOneof = some ⟨5, false⟩ ∧
    (loadField okOracle (newBulkLoader ⟨[]⟩) c10Field "pkg.M" (fun _ => none) =
      appendFieldRow okOracle (newBulkLoader ⟨[]⟩)
        (fieldRowOf (newBulkLoader ⟨[]⟩).resolver c10Field "pkg.M")
        ("failed to append field " ++ ("pkg.M" ++ "." ++ c10Field.name)) ∧
    (∀ bl', loadField okOracle (newBulkLoader ⟨[]⟩) c10Field "pkg.M" (fun _ => none) = .ok bl' →
      bl'.oneofFields = (newBulkLoader ⟨[]⟩).oneofFields)) :=
  ⟨rfl, loadField_missing_oneof_silent okOracle (newBulkLoader ⟨[]⟩) c10Field "pkg.M"
    (fun _ => none) ⟨5, false⟩ rfl rfl rfl⟩

end Pbql

